import Mathlib

/-!
Shallow embedding of the graph-processing core of
`force-app/main/default/lwc/relationshipGraph/relationshipGraph.js`
(a Salesforce relationship-graph LWC): payload processing, risk indexing,
weighted label-propagation clustering, the monotone-chain convex hull, and
the zoom / filter interaction handlers, together with proofs of the
testable properties stated in the specification.

Modelling conventions:
* JavaScript numbers are idealised as rationals (`ℚ`); machine floats are
  not modelled.
* A JavaScript `Map` is an association list in key-insertion order;
  `jsGet` / `jsSet` mirror `Map.get` / `Map.set` (`set` updates an existing
  key in place, otherwise appends).
* Nullable string fields are `String` with `""` standing for
  null/undefined; the source only tests these fields for truthiness.
* `Math.random`-driven data (initial node positions, the per-pass visit
  order produced by the shuffle in `computeClusters`) enters as explicit
  oracle parameters.
* In-place mutation of shared node objects (`node.clusterId = …`) is
  modelled by a separate assignment keyed by node id.
-/

namespace RelGraph

/-! ## JavaScript `Map` as an association list -/

def jsGet {α β : Type} [DecidableEq α] : List (α × β) → α → Option β
  | [], _ => none
  | (k, v) :: t, a => if k = a then some v else jsGet t a

def jsSet {α β : Type} [DecidableEq α] : List (α × β) → α → β → List (α × β)
  | [], a, b => [(a, b)]
  | (k, v) :: t, a, b => if k = a then (k, b) :: t else (k, v) :: jsSet t a b

theorem jsGet_jsSet_self {α β : Type} [DecidableEq α] (m : List (α × β)) (a : α) (b : β) :
    jsGet (jsSet m a b) a = some b := by
  induction m with
  | nil => simp [jsSet, jsGet]
  | cons h t ih =>
    obtain ⟨k, v⟩ := h
    by_cases hk : k = a
    · simp [jsSet, jsGet, hk]
    · simp [jsSet, jsGet, hk, ih]

theorem jsGet_jsSet_ne {α β : Type} [DecidableEq α] (m : List (α × β)) (a c : α) (b : β)
    (h : c ≠ a) : jsGet (jsSet m a b) c = jsGet m c := by
  induction m with
  | nil =>
    simp only [jsSet, jsGet]
    rw [if_neg (fun h' => h h'.symm)]
  | cons hd t ih =>
    obtain ⟨k, v⟩ := hd
    rcases eq_or_ne k a with hk | hk
    · subst hk
      simp only [jsSet, if_pos rfl, jsGet]
      rw [if_neg (fun h' => h h'.symm), if_neg (fun h' => h h'.symm)]
    · simp only [jsSet, if_neg hk, jsGet]
      rcases eq_or_ne k c with hc | hc
      · rw [if_pos hc, if_pos hc]
      · rw [if_neg hc, if_neg hc, ih]

/-- A successful `jsGet` returns a pair that is a member of the list. -/
theorem jsGet_mem {α β : Type} [DecidableEq α] (m : List (α × β)) (a : α) (b : β)
    (h : jsGet m a = some b) : (a, b) ∈ m := by
  induction m with
  | nil => simp [jsGet] at h
  | cons hd t ih =>
    obtain ⟨k, v⟩ := hd
    rcases eq_or_ne k a with hk | hk
    · subst hk
      rw [jsGet, if_pos rfl] at h
      obtain rfl : v = b := Option.some.inj h
      exact List.mem_cons_self _ _
    · rw [jsGet, if_neg hk] at h
      exact List.mem_cons_of_mem _ (ih h)

/-- Keys present in a map stay present after any `jsSet`. -/
theorem jsGet_jsSet_isSome {α β : Type} [DecidableEq α] (m : List (α × β)) (a c : α) (b : β)
    (h : (jsGet m c).isSome) : (jsGet (jsSet m a b) c).isSome := by
  by_cases hc : c = a
  · subst hc; rw [jsGet_jsSet_self]; rfl
  · rwa [jsGet_jsSet_ne _ _ _ _ hc]

/-! ## Data model

A single node record serves both for raw payload nodes and for the
D3-ready nodes produced by `processGraphData` (the source builds the
latter by object spread `{...n, x, y, radius, color}`); position/colour
fields of a raw payload node are the JS `undefined`, modelled as `0`,
`none` or `""`.  Fields of the source objects that no claim touches
(`title`, `amount`, `recordId`, `confidence`, `strengthFactors`, …) are
omitted. -/

structure GNode where
  id : String
  name : String
  nodeType : String
  classification : String
  isHierarchyAccount : Bool
  hierarchyLevel : String
  hasMovedCompany : Bool
  previousCompany : String
  previousCompanyId : String
  interactionCount : Nat
  x : ℚ
  y : ℚ
  vx : ℚ
  vy : ℚ
  fx : Option ℚ
  fy : Option ℚ
  radius : ℚ
  color : String
  deriving DecidableEq

/-- A raw payload edge: `source`/`target` are node ids (strings). -/
structure PEdge where
  source : String
  target : String
  edgeType : String
  strength : ℚ
  interactionCount : Nat
  deriving DecidableEq

/-- A resolved edge: endpoints replaced by the node records found in the
id map (`source: nodeMap.get(e.source)` …). -/
structure OEdge where
  source : GNode
  target : GNode
  edgeType : String
  strength : ℚ
  interactionCount : Nat
  deriving DecidableEq

structure RiskAlert where
  contactId : String
  severity : String
  deriving DecidableEq

/-! ## Node styling (`getNodeRadius`, `getNodeColor`) -/

def classificationColors : List (String × String) :=
  [("Champion", "#2e7d32"), ("Economic Buyer", "#1565c0"),
   ("Technical Buyer", "#6a1b9a"), ("Blocker", "#c62828"),
   ("Influencer", "#ef6c00"), ("End User", "#78909c"),
   ("Detractor", "#b71c1c"), ("Unknown", "#9e9e9e")]

def nodeTypeColors : List (String × String) :=
  [("Account", "#0176d3"), ("Opportunity", "#ff9800"),
   ("External_Contact", "#00897b")]

def getNodeRadius (n : GNode) : ℚ :=
  if n.nodeType = "Moved_To_Company" then 18
  else if n.nodeType = "Account" then
    if n.isHierarchyAccount then (if n.hierarchyLevel = "parent" then 30 else 16)
    else 24
  else if n.nodeType = "Opportunity" then 14
  else if n.nodeType = "External_Contact" then
    8 + min ((n.interactionCount : ℚ) / 5) 8
  else
    10 + min ((n.interactionCount : ℚ) / 5) 12

def getNodeColor (activeFilters : List String) (n : GNode) : String :=
  if n.hasMovedCompany = true then "#bdbdbd"
  else if n.nodeType = "Moved_To_Company" then "#e8e8e8"
  else if n.nodeType = "External_Contact" then "#00897b"
  else if n.nodeType = "Account" ∧ n.isHierarchyAccount then
    (if n.hierarchyLevel = "parent" then "#005FB2" else "#57A3E8")
  else if n.nodeType ≠ "Contact" then (jsGet nodeTypeColors n.nodeType).getD "#9e9e9e"
  else if activeFilters ≠ [] ∧ n.classification ∉ activeFilters then "#e0e0e0"
  else (jsGet classificationColors n.classification).getD "#9e9e9e"

/-! ## `processGraphData`: payload → render model

The source (lines 171–291) early-returns an empty `graphData` for a null
payload or a payload without a node list, otherwise: records the primary
account's name, drops the primary Account node unless hierarchy mode is
on, seeds positions/radius/colour, resolves edges through an id map
(dropping `account_relationship` edges outside hierarchy mode and any
edge with an unresolvable endpoint), appends one synthetic
`Moved_To_Company` node plus one `moved_to` edge for each node flagged
moved-with-destination, and indexes risk alerts by contact id. -/

structure Payload where
  nodes : Option (List GNode)
  edges : List PEdge
  riskAlerts : List RiskAlert
  deriving DecidableEq

/-- `this._accountName`: name of the last node that is an Account and not
a hierarchy account (the loop overwrites on each such node). -/
def accountNameOf (ns : List GNode) : String :=
  ns.foldl (fun acc n =>
    if n.nodeType = "Account" ∧ n.isHierarchyAccount = false then n.name else acc) ""

/-- The node filter: the primary Account node is kept only in hierarchy
mode; everything else is kept. -/
def filterPrimary (showHierarchy : Bool) (ns : List GNode) : List GNode :=
  ns.filter (fun n =>
    ¬(n.nodeType = "Account" ∧ n.isHierarchyAccount = false ∧ showHierarchy = false))

/-- `{...n, x: width/2 + (Math.random()-0.5)*300, …}` — the two
`Math.random()` draws for node number `i` are supplied by the oracle
`pos`. -/
def seedNode (w h : ℚ) (pos : Nat → ℚ × ℚ) (activeFilters : List String)
    (i : Nat) (n : GNode) : GNode :=
  { n with
    x := w / 2 + ((pos i).1 - 1/2) * 300
    y := h / 2 + ((pos i).2 - 1/2) * 300
    radius := getNodeRadius n
    color := getNodeColor activeFilters n }

def baseNodes (w h : ℚ) (pos : Nat → ℚ × ℚ) (activeFilters : List String)
    (showHierarchy : Bool) (ns : List GNode) : List GNode :=
  (filterPrimary showHierarchy ns).enum.map
    (fun p => seedNode w h pos activeFilters p.1 p.2)

/-- `nodeMap`: id → node, last write wins (`forEach` + `Map.set`). -/
def nodeMapOf (ns : List GNode) : List (String × GNode) :=
  ns.foldl (fun m n => jsSet m n.id n) []

/-- The edge filter + resolution step. -/
def resolveEdges (showHierarchy : Bool) (nm : List (String × GNode))
    (es : List PEdge) : List OEdge :=
  es.filterMap (fun e =>
    if e.edgeType = "account_relationship" ∧ showHierarchy = false then none
    else
      match jsGet nm e.source, jsGet nm e.target with
      | some s, some t =>
          some { source := s, target := t, edgeType := e.edgeType,
                 strength := e.strength, interactionCount := e.interactionCount }
      | _, _ => none)

/-- The throwaway object `{ nodeType: 'Moved_To_Company' }` passed to
`getNodeRadius` / `getNodeColor` when building a synthetic node. -/
def movedStub : GNode :=
  { id := "", name := "", nodeType := "Moved_To_Company", classification := ""
    isHierarchyAccount := false, hierarchyLevel := "", hasMovedCompany := false
    previousCompany := "", previousCompanyId := "", interactionCount := 0
    x := 0, y := 0, vx := 0, vy := 0, fx := none, fy := none, radius := 0, color := "" }

/-- The synthetic destination node for a moved contact `n`
(`movedIdx` is the fallback-id counter). -/
def movedToNodeOf (movedIdx : Nat) (n : GNode) : GNode :=
  { id := if n.previousCompanyId ≠ "" then n.previousCompanyId
          else "moved_to_" ++ toString movedIdx
    name := n.previousCompany
    nodeType := "Moved_To_Company"
    classification := "", isHierarchyAccount := false, hierarchyLevel := ""
    hasMovedCompany := false, previousCompany := "", previousCompanyId := ""
    interactionCount := 0
    x := n.x + 120, y := n.y - 60, vx := 0, vy := 0, fx := none, fy := none
    radius := getNodeRadius movedStub
    color := getNodeColor [] movedStub }

def movedEdge (n m : GNode) : OEdge :=
  { source := n, target := m, edgeType := "moved_to", strength := 1/2,
    interactionCount := 0 }

/-- The loop `for (const node of [...this.nodes])` that appends one
synthetic node and one `moved_to` edge per flagged node; `movedIdx` is
only incremented when the fallback id is used. -/
def synthPairs : List GNode → Nat → List (GNode × OEdge)
  | [], _ => []
  | n :: t, idx =>
    if n.hasMovedCompany = true ∧ n.previousCompany ≠ "" then
      (movedToNodeOf idx n, movedEdge n (movedToNodeOf idx n)) ::
        synthPairs t (if n.previousCompanyId ≠ "" then idx else idx + 1)
    else synthPairs t idx

/-- Final node list of the render model. -/
def outNodes (w h : ℚ) (pos : Nat → ℚ × ℚ) (activeFilters : List String)
    (showHierarchy : Bool) (ns : List GNode) : List GNode :=
  let base := baseNodes w h pos activeFilters showHierarchy ns
  base ++ (synthPairs base 0).map Prod.fst

/-- Final edge list of the render model. -/
def outEdges (w h : ℚ) (pos : Nat → ℚ × ℚ) (activeFilters : List String)
    (showHierarchy : Bool) (ns : List GNode) (es : List PEdge) : List OEdge :=
  let base := baseNodes w h pos activeFilters showHierarchy ns
  resolveEdges showHierarchy (nodeMapOf base) es ++ (synthPairs base 0).map Prod.snd

/-- One alert of the `riskNodeIds` loop: skip alerts without a contact
id; otherwise `if (!existing || alert.severity === 'high')` store the
alert's severity. -/
def riskStep (m : List (String × String)) (a : RiskAlert) : List (String × String) :=
  if a.contactId ≠ "" then
    if (jsGet m a.contactId).isSome = false ∨ a.severity = "high" then
      jsSet m a.contactId a.severity
    else m
  else m

/-- `this.riskNodeIds`: contact id → severity; a later alert overwrites
only when the slot is empty or the new alert is high severity. -/
def buildRiskIndex (alerts : List RiskAlert) : List (String × String) :=
  alerts.foldl riskStep []

/-! ## `computeClusters`: weighted label propagation (lines 295–407)

The pass order is `[...contactNodes].sort(() => Math.random() - 0.5)` — a
random permutation of the Contact nodes; the per-pass orders enter as the
explicit parameter `orders` (one visit list per pass, at most 10 in the
source).  In-place assignment of `node.clusterId` is modelled by
`clusterIdOf` applied to the final label map. -/

/-- `adj.get(k).push(v)`, creating the entry when absent. -/
def adjPush (m : List (String × List (String × Nat))) (k : String)
    (v : String × Nat) : List (String × List (String × Nat)) :=
  jsSet m k ((jsGet m k).getD [] ++ [v])

/-- Adjacency over `co_occurrence` edges; weight `interactionCount || 1`. -/
def buildAdj (edges : List OEdge) : List (String × List (String × Nat)) :=
  edges.foldl (fun adj e =>
    if e.edgeType = "co_occurrence" then
      let w := if e.interactionCount = 0 then 1 else e.interactionCount
      adjPush (adjPush adj e.source.id (e.target.id, w)) e.target.id (e.source.id, w)
    else adj) []

def contactNodesOf (nodes : List GNode) : List GNode :=
  nodes.filter (fun n => n.nodeType = "Contact")

/-- `contactNodes.forEach((n, i) => labels.set(n.id, i))`. -/
def initLabels (nodes : List GNode) : List (String × Nat) :=
  (contactNodesOf nodes).enum.foldl (fun m p => jsSet m p.2.id p.1) []

/-- The neighbour-weight tally `freq` of one visit. -/
def freqOf (labels : List (String × Nat)) (nbrs : List (String × Nat)) :
    List (Nat × Nat) :=
  nbrs.foldl (fun f p =>
    match jsGet labels p.1 with
    | none => f
    | some l => jsSet f l ((jsGet f l).getD 0 + p.2)) ([] : List (Nat × Nat))

/-- The best-label fold: `bestLabel = labels.get(node.id)`, `bestWeight =
0`, strict `>` comparison in iteration order. -/
def pickBest (cur : Nat) (freq : List (Nat × Nat)) : Nat × Nat :=
  freq.foldl (fun b q => if q.2 > b.2 then q else b) (cur, 0)

/-- One visit of the inner loop of the propagation: neighbour-weight
tally, strict-majority adoption.  The `none` branch for
`jsGet labels nid` is unreachable in the source, which only ever visits
initialised Contact nodes. -/
def lpVisit (adj : List (String × List (String × Nat)))
    (labels : List (String × Nat)) (nid : String) :
    List (String × Nat) × Bool :=
  match jsGet adj nid with
  | none => (labels, false)
  | some nbrs =>
    if nbrs = [] then (labels, false)
    else if freqOf labels nbrs = [] then (labels, false)
    else
      match jsGet labels nid with
      | none => (labels, false)
      | some cur =>
        if (pickBest cur (freqOf labels nbrs)).1 ≠ cur then
          (jsSet labels nid (pickBest cur (freqOf labels nbrs)).1, true)
        else (labels, false)

/-- One pass over a visit order, tracking the `changed` flag. -/
def lpPass (adj : List (String × List (String × Nat))) (order : List String)
    (labels : List (String × Nat)) : List (String × Nat) × Bool :=
  order.foldl (fun st nid =>
    ((lpVisit adj st.1 nid).1, st.2 || (lpVisit adj st.1 nid).2)) (labels, false)

/-- The outer loop: one pass per entry of `orders` (10 in the source),
stopping early when a pass changes nothing. -/
def lpLoop (adj : List (String × List (String × Nat))) :
    List (List String) → List (String × Nat) → List (String × Nat)
  | [], labels => labels
  | o :: rest, labels =>
    if (lpPass adj o labels).2 then lpLoop adj rest (lpPass adj o labels).1
    else (lpPass adj o labels).1

def finalLabels (nodes : List GNode) (edges : List OEdge)
    (orders : List (List String)) : List (String × Nat) :=
  lpLoop (buildAdj edges) orders (initLabels nodes)

/-- `[...new Set(labels.values())]`: first-occurrence deduplication in map
iteration order. -/
def dedupFirst : List Nat → List Nat → List Nat
  | _, [] => []
  | seen, a :: t => if a ∈ seen then dedupFirst seen t else a :: dedupFirst (a :: seen) t

def uniqueLabels (labels : List (String × Nat)) : List Nat :=
  dedupFirst [] (labels.map Prod.snd)

/-- `uniqueLabels.forEach((label, idx) => labelMap.set(label, idx))`. -/
def labelMapOf (labels : List (String × Nat)) : List (Nat × Nat) :=
  (uniqueLabels labels).enum.foldl (fun m p => jsSet m p.2 p.1) []

/-- `node.clusterId = labelMap.get(labels.get(node.id))` for Contacts,
`-1` otherwise.  The `getD 0` fallbacks replace the JS `undefined` on
lookups that cannot fail for Contact nodes of the model (proved in
`clusterIdOf_contact_nonneg`). -/
def clusterIdOf (labels : List (String × Nat)) (n : GNode) : Int :=
  if n.nodeType = "Contact" then
    match jsGet labels n.id with
    | some l => ((jsGet (labelMapOf labels) l).getD 0 : Nat)
    | none => 0
  else -1

/-- The cluster map: clusterId → member list, in node order.  The derived
colour/label metadata of the source (palette lookup, classification
frequency, account-name override) is omitted: no claim references it. -/
def clustersOf (nodes : List GNode) (labels : List (String × Nat)) :
    List (Int × List GNode) :=
  nodes.foldl (fun cm n =>
    let cid := clusterIdOf labels n
    if cid < 0 then cm
    else jsSet cm cid ((jsGet cm cid).getD [] ++ [n])) []

/-! ## View transform and zoom (lines 1105–1121, 1255–1276) -/

structure Transform where
  x : ℚ
  y : ℚ
  k : ℚ
  deriving DecidableEq

/-- `Math.min` / `Math.max` on (non-NaN) numbers. -/
def jsMin (a b : ℚ) : ℚ := if a ≤ b then a else b

def jsMax (a b : ℚ) : ℚ := if a ≤ b then b else a

/-- `Math.max(0.1, Math.min(5, k))`. -/
def clampK (k : ℚ) : ℚ := jsMax (1/10) (jsMin 5 k)

/-- The shared re-anchoring step of `handleWheel` and `_applyZoom`:
rescale about the pivot `(cx, cy)`. -/
def rescaleTransform (cx cy factor : ℚ) (t : Transform) : Transform :=
  let newK := clampK (t.k * factor)
  { x := cx - (cx - t.x) * (newK / t.k)
    y := cy - (cy - t.y) * (newK / t.k)
    k := newK }

/-- A zoom interaction: wheel (pivot = mouse position, step 1.05),
zoom-in/out buttons (pivot = viewport centre, step 1.2), or reset. -/
inductive ZoomOp where
  | wheel (zin : Bool) (mouseX mouseY : ℚ)
  | button (zin : Bool)
  | reset
  deriving DecidableEq

def zoomStep (w h : ℚ) : ZoomOp → Transform → Transform
  | .wheel zin mx my, t => rescaleTransform mx my (if zin then 21/20 else 20/21) t
  | .button zin, t => rescaleTransform (w/2) (h/2) (if zin then 6/5 else 5/6) t
  | .reset, _ => ⟨0, 0, 1⟩

/-! ## Component state and handlers -/

structure GState where
  graphData : Option Payload
  accountName : String
  nodes : List GNode
  edges : List OEdge
  riskNodeIds : List (String × String)
  clusterIds : List (String × Int)
  clusters : List (Int × List GNode)
  transform : Transform
  activeFilters : List String
  showHierarchy : Bool
  width : ℚ
  height : ℚ
  simRestarts : Nat

/-- `processGraphData(data)` as a state transformer.  `pos` supplies the
`Math.random()` position seeds, `orders` the shuffled visit orders of
`computeClusters`.  A null payload or missing node list only replaces
`graphData` with an empty object — the early `return` leaves every other
field (in particular `this.nodes` / `this.edges`) untouched. -/
def processGraphData (pos : Nat → ℚ × ℚ) (orders : List (List String))
    (st : GState) (data : Option Payload) : GState :=
  match data with
  | none => { st with graphData := some ⟨some [], [], []⟩ }
  | some d =>
    match d.nodes with
    | none => { st with graphData := some ⟨some [], [], []⟩ }
    | some ns =>
      let nodes := outNodes st.width st.height pos st.activeFilters st.showHierarchy ns
      let edges := outEdges st.width st.height pos st.activeFilters st.showHierarchy ns d.edges
      let labels := finalLabels nodes edges orders
      { st with
        graphData := some d
        accountName := accountNameOf ns
        riskNodeIds := buildRiskIndex d.riskAlerts
        nodes := nodes
        edges := edges
        clusterIds := nodes.map (fun n => (n.id, clusterIdOf labels n))
        clusters := clustersOf nodes labels }

/-- `handleFilterClick`: toggle the classification in the active filter
set, recompute node colours, redraw.  No other state is touched and the
simulation is not restarted. -/
def handleFilterClick (st : GState) (classification : String) : GState :=
  let filters :=
    if classification ∈ st.activeFilters then
      st.activeFilters.filter (fun f => f ≠ classification)
    else st.activeFilters ++ [classification]
  { st with
    activeFilters := filters
    nodes := st.nodes.map (fun n => { n with color := getNodeColor filters n }) }

/-- A sequence of zoom interactions applied to the initial transform
`{x: 0, y: 0, k: 1}`. -/
def zoomFold (w h : ℚ) (ops : List ZoomOp) : Transform :=
  ops.foldl (fun t op => zoomStep w h op t) ⟨0, 0, 1⟩

/-! # Theorems -/

/-! ## C6 — zoom clamp and the exact-5 wheel scenario -/

theorem clampK_bounds (k : ℚ) : 1/10 ≤ clampK k ∧ clampK k ≤ 5 := by
  unfold clampK jsMax jsMin
  split_ifs with h1 h2 h3 <;> constructor <;> linarith

theorem zoomStep_k_bounds (w h : ℚ) (op : ZoomOp) (t : Transform) :
    1/10 ≤ (zoomStep w h op t).k ∧ (zoomStep w h op t).k ≤ 5 := by
  cases op with
  | wheel zin mx my => exact clampK_bounds _
  | button zin => exact clampK_bounds _
  | reset => constructor <;> norm_num [zoomStep]

theorem zoomFold_go_bounds (w h : ℚ) (ops : List ZoomOp) (t : Transform)
    (ht : 1/10 ≤ t.k ∧ t.k ≤ 5) :
    1/10 ≤ (ops.foldl (fun t op => zoomStep w h op t) t).k ∧
      (ops.foldl (fun t op => zoomStep w h op t) t).k ≤ 5 := by
  induction ops generalizing t with
  | nil => exact ht
  | cons op rest ih => exact ih _ (zoomStep_k_bounds w h op t)

/-- The scale after applying a wheel zoom-in step. -/
theorem zoomStep_wheelIn_k (w h mx my : ℚ) (t : Transform) :
    (zoomStep w h (ZoomOp.wheel true mx my) t).k = clampK (t.k * (21/20)) := rfl

theorem wheelIn_iter_k (w h mx my : ℚ) (n : Nat) :
    (zoomFold w h (List.replicate n (ZoomOp.wheel true mx my))).k =
      jsMin 5 ((21/20) ^ n) := by
  have key : ∀ (m : Nat) (t : Transform) (j : Nat),
      t.k = jsMin 5 ((21/20) ^ j) →
      ((List.replicate m (ZoomOp.wheel true mx my)).foldl
          (fun t op => zoomStep w h op t) t).k = jsMin 5 ((21/20) ^ (j + m)) := by
    intro m
    induction m with
    | zero => intro t j ht; simpa using ht
    | succ m ih =>
      intro t j ht
      rw [List.replicate_succ, List.foldl_cons]
      have hstep : (zoomStep w h (ZoomOp.wheel true mx my) t).k =
          jsMin 5 ((21/20) ^ (j + 1)) := by
        rw [zoomStep_wheelIn_k, ht]
        have hpow : (1 : ℚ) ≤ (21/20) ^ j := one_le_pow₀ (by norm_num)
        have hp1 : (21/20 : ℚ) ^ (j + 1) = (21/20) ^ j * (21/20) := by ring
        rw [hp1]
        unfold clampK jsMax jsMin
        by_cases h5 : (5 : ℚ) ≤ (21/20) ^ j
        · rw [if_pos h5]
          have h6 : (5 : ℚ) ≤ 5 * (21/20) := by norm_num
          rw [if_pos h6, if_pos (by norm_num : (1 : ℚ)/10 ≤ 5),
            if_pos (by nlinarith : (5 : ℚ) ≤ (21/20) ^ j * (21/20))]
        · rw [if_neg h5]
          by_cases h6 : (5 : ℚ) ≤ (21/20) ^ j * (21/20)
          · rw [if_pos h6, if_pos (by norm_num : (1 : ℚ)/10 ≤ 5)]
          · rw [if_neg h6, if_pos (by nlinarith : (1 : ℚ)/10 ≤ (21/20) ^ j * (21/20))]
      have := ih (zoomStep w h (ZoomOp.wheel true mx my) t) (j + 1) hstep
      rw [this, Nat.add_assoc, Nat.add_comm 1 m]
  have h0 : (⟨0, 0, 1⟩ : Transform).k = jsMin 5 ((21/20) ^ 0) := by
    simp [jsMin]
  have := key n ⟨0, 0, 1⟩ 0 h0
  simpa [zoomFold] using this

/-- C6: for any sequence of zoom operations starting from scale 1 the
scale stays within `[0.1, 5]`; wheel zoom-in repeated from scale 1.0
reaches exactly 5 at step 33 (the first step whose unclamped value
exceeds 5) and was strictly below 5 at step 32. -/
theorem zoom_scale_clamped :
    (∀ (w h : ℚ) (ops : List ZoomOp),
        1/10 ≤ (zoomFold w h ops).k ∧ (zoomFold w h ops).k ≤ 5) ∧
    (zoomFold 800 600 (List.replicate 33 (ZoomOp.wheel true 100 100))).k = 5 ∧
    (zoomFold 800 600 (List.replicate 32 (ZoomOp.wheel true 100 100))).k < 5 := by
  refine ⟨fun w h ops => zoomFold_go_bounds w h ops _ (by norm_num), ?_, ?_⟩
  · rw [wheelIn_iter_k]
    have : (5 : ℚ) ≤ (21/20) ^ 33 := by norm_num
    unfold jsMin
    split_ifs <;> linarith
  · rw [wheelIn_iter_k]
    have : ((21 : ℚ)/20) ^ 32 < 5 := by norm_num
    unfold jsMin
    split_ifs <;> linarith

/-! ## C7 — risk precedence -/

theorem riskFold_high_persists (l : List RiskAlert) (m : List (String × String))
    (s : String) (h : jsGet m s = some "high") :
    jsGet (l.foldl riskStep m) s = some "high" := by
  induction l generalizing m with
  | nil => exact h
  | cons a t ih =>
    rw [List.foldl_cons]
    refine ih _ ?_
    unfold riskStep
    split_ifs with h1 h2
    · rcases eq_or_ne a.contactId s with hc | hc
      · subst hc
        rcases h2 with h2 | h2
        · rw [h] at h2; simp at h2
        · rw [h2, jsGet_jsSet_self]
      · rw [jsGet_jsSet_ne _ _ _ _ (fun h' => hc h'.symm)]; exact h
    · exact h
    · exact h

theorem riskFold_high (l : List RiskAlert) (m : List (String × String)) (s : String)
    (hs : s ≠ "") (h : ∃ a ∈ l, a.contactId = s ∧ a.severity = "high") :
    jsGet (l.foldl riskStep m) s = some "high" := by
  induction l generalizing m with
  | nil => simp at h
  | cons a t ih =>
    rw [List.foldl_cons]
    rcases h with ⟨w, hw, hws, hsev⟩
    rcases List.mem_cons.mp hw with rfl | hwt
    · refine riskFold_high_persists t _ s ?_
      unfold riskStep
      rw [hws, if_pos hs, if_pos (Or.inr hsev), hsev, jsGet_jsSet_self]
    · exact ih _ ⟨w, hwt, hws, hsev⟩

theorem riskFold_medium (l : List RiskAlert) (m : List (String × String)) (s : String)
    (hs : s ≠ "")
    (hall : ∀ a ∈ l, a.contactId = s → a.severity = "medium")
    (hst : jsGet m s = some "medium" ∨ (jsGet m s = none ∧ ∃ a ∈ l, a.contactId = s)) :
    jsGet (l.foldl riskStep m) s = some "medium" := by
  induction l generalizing m with
  | nil =>
    rcases hst with h | ⟨_, ⟨_, h, _⟩⟩
    · exact h
    · simp at h
  | cons a t ih =>
    rw [List.foldl_cons]
    have hallt : ∀ b ∈ t, b.contactId = s → b.severity = "medium" :=
      fun b hb => hall b (List.mem_cons_of_mem _ hb)
    rcases eq_or_ne a.contactId s with hc | hc
    · have hmed : a.severity = "medium" := hall a (List.mem_cons_self _ _) hc
      rcases hst with h | ⟨hnone, _⟩
      · refine ih _ hallt (Or.inl ?_)
        unfold riskStep
        rw [hc, if_pos hs, h]
        split_ifs with h2
        · rw [hmed, jsGet_jsSet_self]
        · exact h
      · refine ih _ hallt (Or.inl ?_)
        unfold riskStep
        rw [hc, if_pos hs, hnone,
          if_pos (Or.inl (by decide : (none : Option String).isSome = false)),
          hmed, jsGet_jsSet_self]
    · have hkeep : jsGet (riskStep m a) s = jsGet m s := by
        unfold riskStep
        split_ifs with h1 h2
        · exact jsGet_jsSet_ne _ _ _ _ (fun h' => hc h'.symm)
        · rfl
        · rfl
      rcases hst with h | ⟨hnone, ⟨w, hw, hws⟩⟩
      · exact ih _ hallt (Or.inl (hkeep.trans h))
      · rcases List.mem_cons.mp hw with rfl | hwt
        · exact absurd hws hc
        · exact ih _ hallt (Or.inr ⟨hkeep.trans hnone, w, hwt, hws⟩)

/-- C7: the risk index reports the highest severity seen for a subject —
any high-severity alert forces "high" regardless of order, and a subject
whose alerts are all medium-severity is reported "medium". -/
theorem risk_index_highest_severity (alerts : List RiskAlert) (s : String) (hs : s ≠ "") :
    ((∃ a ∈ alerts, a.contactId = s ∧ a.severity = "high") →
      jsGet (buildRiskIndex alerts) s = some "high") ∧
    ((∃ a ∈ alerts, a.contactId = s) →
      (∀ a ∈ alerts, a.contactId = s → a.severity = "medium") →
      jsGet (buildRiskIndex alerts) s = some "medium") := by
  constructor
  · intro h
    exact riskFold_high alerts [] s hs h
  · intro hex hall
    exact riskFold_medium alerts [] s hs hall (Or.inr ⟨rfl, hex⟩)

/-- Witness for C7: with a medium alert followed by a high alert for the
same contact the index reports "high" (the reverse order is forced to
"high" by the same theorem); a lone medium alert reports "medium". -/
theorem risk_index_highest_severity_check :
    jsGet (buildRiskIndex [⟨"c1", "medium"⟩, ⟨"c1", "high"⟩]) "c1" = some "high" ∧
    jsGet (buildRiskIndex [⟨"c1", "high"⟩, ⟨"c1", "medium"⟩]) "c1" = some "high" ∧
    jsGet (buildRiskIndex [⟨"c1", "medium"⟩]) "c1" = some "medium" := by
  refine ⟨?_, ?_, ?_⟩
  · exact (risk_index_highest_severity _ "c1" (by decide)).1
      ⟨⟨"c1", "high"⟩, by decide, rfl, rfl⟩
  · exact (risk_index_highest_severity _ "c1" (by decide)).1
      ⟨⟨"c1", "high"⟩, by decide, rfl, rfl⟩
  · exact (risk_index_highest_severity _ "c1" (by decide)).2
      ⟨⟨"c1", "medium"⟩, by decide, rfl⟩ (by decide)

/-! ## C8 — null / node-less payload -/

/-- A component state that already holds a one-node render model, as
left behind by a previous successful load. -/
def preloadedState : GState :=
  { graphData := none, accountName := "", nodes := [movedStub], edges := [],
    riskNodeIds := [], clusterIds := [], clusters := [], transform := ⟨0, 0, 1⟩,
    activeFilters := [], showHierarchy := false, width := 800, height := 600,
    simRestarts := 0 }

/-- Counterexample to C8 as stated: after a model has been loaded,
processing a null payload does NOT empty the layout/drawing model — the
early return only replaces `this.graphData`, leaving `this.nodes` (here
of length 1) untouched. -/
theorem processGraphData_null_keeps_stale_model :
    (processGraphData (fun _ => (0, 0)) [] preloadedState none).nodes.length = 1 ∧
    (processGraphData (fun _ => (0, 0)) [] preloadedState none).nodes ≠ [] := by
  constructor
  · rfl
  · intro h
    exact absurd (congrArg List.length h) (by decide)

/-- C8 (amended): for a null payload or a payload without a node list,
`processGraphData` raises no exception (it is total), sets `graphData`
to an empty `{nodes: [], edges: []}` object, and leaves the rest of the
state — in particular the layout model `this.nodes` / `this.edges` —
unchanged; the layout model is therefore empty exactly when no model had
been loaded before. -/
theorem processGraphData_null_empty (pos : Nat → ℚ × ℚ) (orders : List (List String))
    (st : GState) (data : Option Payload)
    (h : data = none ∨ ∃ d, data = some d ∧ d.nodes = none) :
    (processGraphData pos orders st data).graphData = some ⟨some [], [], []⟩ ∧
    (processGraphData pos orders st data).nodes = st.nodes ∧
    (processGraphData pos orders st data).edges = st.edges ∧
    (processGraphData pos orders st data).riskNodeIds = st.riskNodeIds ∧
    (processGraphData pos orders st data).clusters = st.clusters ∧
    (processGraphData pos orders st data).transform = st.transform ∧
    (st.nodes = [] → (processGraphData pos orders st data).nodes = []) ∧
    (st.edges = [] → (processGraphData pos orders st data).edges = []) := by
  rcases h with rfl | ⟨d, rfl, hd⟩
  · exact ⟨rfl, rfl, rfl, rfl, rfl, rfl, fun h => h, fun h => h⟩
  · obtain ⟨n, e, r⟩ := d
    cases hd
    exact ⟨rfl, rfl, rfl, rfl, rfl, rfl, fun h => h, fun h => h⟩

/-- Witness for C8 (amended): with a fresh (never-loaded) state and a
null payload the resulting layout model is empty and `graphData` is the
empty object. -/
theorem processGraphData_null_empty_check :
    (processGraphData (fun _ => (0, 0)) []
        { preloadedState with nodes := [] } none).graphData = some ⟨some [], [], []⟩ ∧
    (processGraphData (fun _ => (0, 0)) []
        { preloadedState with nodes := [] } none).nodes = [] := by
  have h := processGraphData_null_empty (fun _ => (0, 0)) []
    { preloadedState with nodes := [] } none (Or.inl rfl)
  exact ⟨h.1, h.2.2.2.2.2.2.1 rfl⟩

/-! ## C9 — classification-badge click recolours only -/

/-- C9: `handleFilterClick` toggles the clicked classification in the
active filter set and recomputes node colours; every node's position,
velocity and pin, the edge list, the cluster map and assignment, the view
transform, and the simulation-restart count are unchanged. -/
theorem filter_click_color_only (st : GState) (c : String) :
    ((handleFilterClick st c).nodes.map fun n => (n.id, n.x, n.y, n.vx, n.vy, n.fx, n.fy)) =
      (st.nodes.map fun n => (n.id, n.x, n.y, n.vx, n.vy, n.fx, n.fy)) ∧
    (handleFilterClick st c).edges = st.edges ∧
    (handleFilterClick st c).clusters = st.clusters ∧
    (handleFilterClick st c).clusterIds = st.clusterIds ∧
    (handleFilterClick st c).transform = st.transform ∧
    (handleFilterClick st c).simRestarts = st.simRestarts ∧
    (c ∈ (handleFilterClick st c).activeFilters ↔ c ∉ st.activeFilters) ∧
    ∀ n ∈ st.nodes,
      { n with color := getNodeColor (handleFilterClick st c).activeFilters n } ∈
        (handleFilterClick st c).nodes := by
  refine ⟨?_, rfl, rfl, rfl, rfl, rfl, ?_, ?_⟩
  · rw [show (handleFilterClick st c).nodes =
        st.nodes.map (fun n =>
          { n with color := getNodeColor (handleFilterClick st c).activeFilters n })
      from rfl, List.map_map]
    rfl
  · unfold handleFilterClick
    by_cases hc : c ∈ st.activeFilters
    · simp only [if_pos hc, List.mem_filter]
      simp [hc]
    · simp only [if_neg hc, List.mem_append]
      simp [hc]
  · intro n hn
    exact List.mem_map_of_mem _ hn

/-- Witness for C9: clicking the "Champion" badge on a state holding one
node toggles the filter on and recolours that node in place. -/
theorem filter_click_color_only_check :
    ("Champion" ∈ (handleFilterClick preloadedState "Champion").activeFilters) ∧
    { movedStub with
        color := getNodeColor (handleFilterClick preloadedState "Champion").activeFilters
          movedStub } ∈ (handleFilterClick preloadedState "Champion").nodes ∧
    (handleFilterClick preloadedState "Champion").transform = preloadedState.transform := by
  have h := filter_click_color_only preloadedState "Champion"
  refine ⟨h.2.2.2.2.2.2.1.mpr (by decide), ?_, h.2.2.2.2.1⟩
  exact h.2.2.2.2.2.2.2 movedStub (by decide)

/-! ## Lemmas about the node id map -/

theorem jsGet_nodeMapOf_aux (ns : List GNode) (m : List (String × GNode)) (k : String)
    (v : GNode) (h : jsGet (ns.foldl (fun m n => jsSet m n.id n) m) k = some v) :
    (v ∈ ns ∧ v.id = k) ∨ jsGet m k = some v := by
  induction ns generalizing m with
  | nil => exact Or.inr h
  | cons n t ih =>
    rw [List.foldl_cons] at h
    rcases ih _ h with ⟨hv, hk⟩ | h2
    · exact Or.inl ⟨List.mem_cons_of_mem _ hv, hk⟩
    · rcases eq_or_ne k n.id with hk | hk
      · subst hk
        rw [jsGet_jsSet_self] at h2
        obtain rfl : n = v := Option.some.inj h2
        exact Or.inl ⟨List.mem_cons_self _ _, rfl⟩
      · rw [jsGet_jsSet_ne _ _ _ _ hk] at h2
        exact Or.inr h2

theorem jsGet_nodeMapOf (ns : List GNode) (k : String) (v : GNode)
    (h : jsGet (nodeMapOf ns) k = some v) : v ∈ ns ∧ v.id = k := by
  rcases jsGet_nodeMapOf_aux ns [] k v h with h | h
  · exact h
  · simp [jsGet] at h

theorem jsGet_nodeMapOf_isSome_aux (ns : List GNode) (m : List (String × GNode))
    (k : String) (h : k ∈ ns.map (fun n => n.id) ∨ (jsGet m k).isSome) :
    (jsGet (ns.foldl (fun m n => jsSet m n.id n) m) k).isSome := by
  induction ns generalizing m with
  | nil =>
    rcases h with h | h
    · simp at h
    · exact h
  | cons n t ih =>
    rw [List.foldl_cons]
    rcases h with h | h
    · rcases List.mem_map.mp h with ⟨w, hw, hwk⟩
      rcases List.mem_cons.mp hw with rfl | hwt
      · refine ih _ (Or.inr ?_)
        rw [hwk, jsGet_jsSet_self]; rfl
      · exact ih _ (Or.inl (List.mem_map.mpr ⟨w, hwt, hwk⟩))
    · exact ih _ (Or.inr (jsGet_jsSet_isSome _ _ _ _ h))

theorem jsGet_nodeMapOf_isSome (ns : List GNode) (k : String)
    (h : k ∈ ns.map (fun n => n.id)) : (jsGet (nodeMapOf ns) k).isSome :=
  jsGet_nodeMapOf_isSome_aux ns [] k (Or.inl h)

/-! ## Lemmas about the synthetic moved-to pairs -/

theorem synthPairs_edge (l : List GNode) (idx : Nat) (p : GNode × OEdge)
    (hp : p ∈ synthPairs l idx) :
    p.2.source ∈ l ∧ p.2.target = p.1 ∧ p.2.edgeType = "moved_to" ∧
      p.1.nodeType = "Moved_To_Company" ∧ p.2.source.hasMovedCompany = true ∧
      p.2.source.previousCompany = p.1.name := by
  induction l generalizing idx with
  | nil => simp [synthPairs] at hp
  | cons n t ih =>
    rw [synthPairs] at hp
    by_cases hf : n.hasMovedCompany = true ∧ n.previousCompany ≠ ""
    · rw [if_pos hf] at hp
      rcases List.mem_cons.mp hp with rfl | hp2
      · exact ⟨List.mem_cons_self _ _, rfl, rfl, rfl, hf.1, rfl⟩
      · have := ih _ hp2
        exact ⟨List.mem_cons_of_mem _ this.1, this.2⟩
    · rw [if_neg hf] at hp
      have := ih _ hp
      exact ⟨List.mem_cons_of_mem _ this.1, this.2⟩

/-! ## C3 — referential integrity of the output edge set -/

/-- C3: every edge of the processed edge set — resolved payload edges and
synthetic `moved_to` edges alike — has its `source` and `target` in the
processed node set. -/
theorem edges_referential_integrity (w h : ℚ) (pos : Nat → ℚ × ℚ)
    (filters : List String) (sh : Bool) (ns : List GNode) (es : List PEdge) :
    ∀ e ∈ outEdges w h pos filters sh ns es,
      e.source ∈ outNodes w h pos filters sh ns ∧
      e.target ∈ outNodes w h pos filters sh ns := by
  intro e he
  unfold outEdges at he
  unfold outNodes
  rcases List.mem_append.mp he with hres | hsynth
  · rcases List.mem_filterMap.mp hres with ⟨pe, hpe, hsome⟩
    by_cases hcond : pe.edgeType = "account_relationship" ∧ sh = false
    · rw [if_pos hcond] at hsome
      exact Option.noConfusion hsome
    · rw [if_neg hcond] at hsome
      cases hs : jsGet (nodeMapOf (baseNodes w h pos filters sh ns)) pe.source with
      | none =>
        cases ht : jsGet (nodeMapOf (baseNodes w h pos filters sh ns)) pe.target with
        | none => rw [hs, ht] at hsome; exact Option.noConfusion hsome
        | some t => rw [hs, ht] at hsome; exact Option.noConfusion hsome
      | some s =>
        cases ht : jsGet (nodeMapOf (baseNodes w h pos filters sh ns)) pe.target with
        | none => rw [hs, ht] at hsome; exact Option.noConfusion hsome
        | some t =>
          rw [hs, ht] at hsome
          obtain rfl := Option.some.inj hsome
          exact ⟨List.mem_append_left _ (jsGet_nodeMapOf _ _ _ hs).1,
            List.mem_append_left _ (jsGet_nodeMapOf _ _ _ ht).1⟩
  · rcases List.mem_map.mp hsynth with ⟨p, hp, rfl⟩
    have hinfo := synthPairs_edge _ _ _ hp
    refine ⟨List.mem_append_left _ hinfo.1, List.mem_append_right _ ?_⟩
    rw [hinfo.2.1]
    exact List.mem_map_of_mem _ hp

/-! ## Witness fixtures: a tiny concrete payload -/

/-- A minimal Contact payload node with the given id. -/
def cNode (i : String) : GNode :=
  { id := i, name := i, nodeType := "Contact", classification := ""
    isHierarchyAccount := false, hierarchyLevel := "", hasMovedCompany := false
    previousCompany := "", previousCompanyId := "", interactionCount := 0
    x := 0, y := 0, vx := 0, vy := 0, fx := none, fy := none, radius := 0, color := "" }

/-- Witness for C3 at a concrete two-contact payload with one edge. -/
theorem edges_referential_integrity_check :
    ∃ e ∈ outEdges 800 600 (fun _ => (1/2, 1/2)) [] false [cNode "n1", cNode "n2"]
        [⟨"n1", "n2", "co_occurrence", 1, 2⟩],
      e.source ∈ outNodes 800 600 (fun _ => (1/2, 1/2)) [] false [cNode "n1", cNode "n2"] ∧
      e.target ∈ outNodes 800 600 (fun _ => (1/2, 1/2)) [] false [cNode "n1", cNode "n2"] := by
  have hne : outEdges 800 600 (fun _ => (1/2, 1/2)) [] false [cNode "n1", cNode "n2"]
      [⟨"n1", "n2", "co_occurrence", 1, 2⟩] ≠ [] := by
    intro h
    exact absurd (congrArg List.length h) (by decide)
  refine ⟨_, List.head_mem hne, ?_⟩
  exact edges_referential_integrity 800 600 (fun _ => (1/2, 1/2)) [] false
    [cNode "n1", cNode "n2"] [⟨"n1", "n2", "co_occurrence", 1, 2⟩] _ (List.head_mem hne)

/-! ## C2 — OrgRelationship edges iff hierarchy mode -/

theorem filterPrimary_showHierarchy (ns : List GNode) : filterPrimary true ns = ns := by
  unfold filterPrimary
  refine List.filter_eq_self.mpr fun n _ => ?_
  simp

theorem baseNodes_ids (w h : ℚ) (pos : Nat → ℚ × ℚ) (filters : List String)
    (sh : Bool) (ns : List GNode) :
    (baseNodes w h pos filters sh ns).map (fun n => n.id) =
      (filterPrimary sh ns).map (fun n => n.id) := by
  unfold baseNodes
  rw [List.map_map]
  have : ((filterPrimary sh ns).enum.map
      (fun p => ((seedNode w h pos filters p.1 p.2).id))) =
      ((filterPrimary sh ns).enum.map (fun p => p.2.id)) :=
    List.map_congr_left fun p _ => rfl
  have h2 : ((filterPrimary sh ns).enum.map (fun p => p.2.id)) =
      ((filterPrimary sh ns).enum.map Prod.snd).map (fun n => n.id) := by
    rw [List.map_map]; rfl
  calc ((filterPrimary sh ns).enum.map
          ((fun n => n.id) ∘ fun p => seedNode w h pos filters p.1 p.2)) =
      ((filterPrimary sh ns).enum.map (fun p => p.2.id)) := this
    _ = ((filterPrimary sh ns).enum.map Prod.snd).map (fun n => n.id) := h2
    _ = (filterPrimary sh ns).map (fun n => n.id) := by rw [List.enum_map_snd]

/-- C2: an `account_relationship` edge can appear in the output edge set
only in hierarchy mode; conversely, in hierarchy mode every input
`account_relationship` edge whose endpoints resolve against the payload
node set survives processing. -/
theorem orgRel_edges_iff_hierarchy (w h : ℚ) (pos : Nat → ℚ × ℚ)
    (filters : List String) (sh : Bool) (ns : List GNode) (es : List PEdge) :
    (∀ e ∈ outEdges w h pos filters sh ns es,
        e.edgeType = "account_relationship" → sh = true) ∧
    (sh = true → ∀ e ∈ es, e.edgeType = "account_relationship" →
      e.source ∈ ns.map (fun n => n.id) → e.target ∈ ns.map (fun n => n.id) →
      ∃ oe ∈ outEdges w h pos filters sh ns es,
        oe.edgeType = "account_relationship" ∧ oe.source.id = e.source ∧
        oe.target.id = e.target ∧ oe.strength = e.strength) := by
  constructor
  · intro e he htype
    unfold outEdges at he
    rcases List.mem_append.mp he with hres | hsynth
    · rcases List.mem_filterMap.mp hres with ⟨pe, hpe, hsome⟩
      by_cases hcond : pe.edgeType = "account_relationship" ∧ sh = false
      · rw [if_pos hcond] at hsome
        exact Option.noConfusion hsome
      · rw [if_neg hcond] at hsome
        cases sh with
        | true => rfl
        | false =>
          exfalso
          cases hs : jsGet (nodeMapOf (baseNodes w h pos filters false ns)) pe.source with
          | none =>
            cases ht : jsGet (nodeMapOf (baseNodes w h pos filters false ns)) pe.target with
            | none => rw [hs, ht] at hsome; exact Option.noConfusion hsome
            | some t => rw [hs, ht] at hsome; exact Option.noConfusion hsome
          | some s =>
            cases ht : jsGet (nodeMapOf (baseNodes w h pos filters false ns)) pe.target with
            | none => rw [hs, ht] at hsome; exact Option.noConfusion hsome
            | some t =>
              rw [hs, ht] at hsome
              obtain rfl := Option.some.inj hsome
              exact hcond ⟨htype, rfl⟩
    · rcases List.mem_map.mp hsynth with ⟨p, hp, rfl⟩
      have := (synthPairs_edge _ _ _ hp).2.2.1
      rw [this] at htype
      exact absurd htype (by decide)
  · intro hsh e he htype hsrc htgt
    subst hsh
    have hids : (baseNodes w h pos filters true ns).map (fun n => n.id) =
        ns.map (fun n => n.id) := by
      rw [baseNodes_ids, filterPrimary_showHierarchy]
    have hs : (jsGet (nodeMapOf (baseNodes w h pos filters true ns)) e.source).isSome :=
      jsGet_nodeMapOf_isSome _ _ (by rw [hids]; exact hsrc)
    have ht : (jsGet (nodeMapOf (baseNodes w h pos filters true ns)) e.target).isSome :=
      jsGet_nodeMapOf_isSome _ _ (by rw [hids]; exact htgt)
    rcases Option.isSome_iff_exists.mp hs with ⟨s, hs⟩
    rcases Option.isSome_iff_exists.mp ht with ⟨t, ht⟩
    refine ⟨{ source := s, target := t, edgeType := e.edgeType,
              strength := e.strength, interactionCount := e.interactionCount }, ?_, ?_⟩
    · unfold outEdges
      refine List.mem_append_left _ (List.mem_filterMap.mpr ⟨e, he, ?_⟩)
      rw [if_neg (by simp : ¬(e.edgeType = "account_relationship" ∧ true = false)), hs, ht]
    · exact ⟨htype, (jsGet_nodeMapOf _ _ _ hs).2, (jsGet_nodeMapOf _ _ _ ht).2, rfl⟩

/-- Witness for C2: with hierarchy mode on, a concrete
`account_relationship` edge between two payload nodes survives
processing; with hierarchy mode off no such edge survives. -/
theorem orgRel_edges_iff_hierarchy_check :
    (∃ oe ∈ outEdges 800 600 (fun _ => (1/2, 1/2)) [] true [cNode "n1", cNode "n2"]
        [⟨"n1", "n2", "account_relationship", 1, 0⟩],
      oe.edgeType = "account_relationship" ∧ oe.source.id = "n1" ∧
        oe.target.id = "n2" ∧ oe.strength = 1) ∧
    (∀ e ∈ outEdges 800 600 (fun _ => (1/2, 1/2)) [] false [cNode "n1", cNode "n2"]
        [⟨"n1", "n2", "account_relationship", 1, 0⟩],
      e.edgeType ≠ "account_relationship") := by
  constructor
  · have h := (orgRel_edges_iff_hierarchy 800 600 (fun _ => (1/2, 1/2)) [] true
      [cNode "n1", cNode "n2"] [⟨"n1", "n2", "account_relationship", 1, 0⟩]).2
      rfl ⟨"n1", "n2", "account_relationship", 1, 0⟩ (by decide) rfl
      (by decide) (by decide)
    exact h
  · intro e he htype
    have h := (orgRel_edges_iff_hierarchy 800 600 (fun _ => (1/2, 1/2)) [] false
      [cNode "n1", cNode "n2"] [⟨"n1", "n2", "account_relationship", 1, 0⟩]).1
      e he htype
    exact absurd h (by decide)

/-! ## C4 — synthetic `Moved_To_Company` node correspondence -/

/-- The sources of the synthetic pairs are exactly the flagged nodes, in
order. -/
theorem synthPairs_sources (l : List GNode) (idx : Nat) :
    (synthPairs l idx).map (fun p => p.2.source) =
      l.filter (fun n => n.hasMovedCompany = true ∧ n.previousCompany ≠ "") := by
  induction l generalizing idx with
  | nil => rfl
  | cons n t ih =>
    rw [synthPairs]
    by_cases hf : n.hasMovedCompany = true ∧ n.previousCompany ≠ ""
    · rw [if_pos hf, List.map_cons,
        List.filter_cons_of_pos (by exact decide_eq_true hf), ih]
      exact rfl
    · rw [if_neg hf,
        List.filter_cons_of_neg (by simpa using hf), ih]

theorem baseNodes_mem (w h : ℚ) (pos : Nat → ℚ × ℚ) (filters : List String)
    (sh : Bool) (ns : List GNode) (n : GNode)
    (hn : n ∈ baseNodes w h pos filters sh ns) :
    ∃ x ∈ ns, n.id = x.id ∧ n.nodeType = x.nodeType ∧
      n.hasMovedCompany = x.hasMovedCompany ∧ n.previousCompany = x.previousCompany := by
  unfold baseNodes at hn
  rcases List.mem_map.mp hn with ⟨p, hp, rfl⟩
  have hsnd : p.2 ∈ filterPrimary sh ns := by
    have := List.mem_map_of_mem Prod.snd hp
    rwa [List.enum_map_snd] at this
  exact ⟨p.2, (List.mem_filter.mp hsnd).1, rfl, rfl, rfl, rfl⟩

theorem enumFrom_seed_filter_flag_length (w h : ℚ) (pos : Nat → ℚ × ℚ)
    (filters : List String) (l : List GNode) (k : Nat) :
    (((List.enumFrom k l).map (fun p => seedNode w h pos filters p.1 p.2)).filter
        (fun n => n.hasMovedCompany = true ∧ n.previousCompany ≠ "")).length =
      (l.filter (fun n => n.hasMovedCompany = true ∧ n.previousCompany ≠ "")).length := by
  induction l generalizing k with
  | nil => rfl
  | cons n t ih =>
    rw [List.enumFrom_cons, List.map_cons]
    by_cases hf : n.hasMovedCompany = true ∧ n.previousCompany ≠ ""
    · rw [List.filter_cons_of_pos (by exact decide_eq_true hf),
        List.filter_cons_of_pos (by exact decide_eq_true hf),
        List.length_cons, List.length_cons, ih]
    · rw [List.filter_cons_of_neg (by simpa using hf),
        List.filter_cons_of_neg (by simpa using hf), ih]

theorem baseNodes_filter_flag_length (w h : ℚ) (pos : Nat → ℚ × ℚ)
    (filters : List String) (sh : Bool) (ns : List GNode)
    (h2 : ∀ n ∈ ns, n.hasMovedCompany = true ∧ n.previousCompany ≠ "" →
      ¬(n.nodeType = "Account" ∧ n.isHierarchyAccount = false ∧ sh = false)) :
    ((baseNodes w h pos filters sh ns).filter
        (fun n => n.hasMovedCompany = true ∧ n.previousCompany ≠ "")).length =
      (ns.filter (fun n => n.hasMovedCompany = true ∧ n.previousCompany ≠ "")).length := by
  unfold baseNodes
  rw [show (filterPrimary sh ns).enum = List.enumFrom 0 (filterPrimary sh ns) from rfl,
    enumFrom_seed_filter_flag_length]
  unfold filterPrimary
  rw [List.filter_filter]
  congr 1
  refine List.filter_congr fun n hn => ?_
  by_cases hf : n.hasMovedCompany = true ∧ n.previousCompany ≠ ""
  · simp [hf, h2 n hn hf]
  · simp [hf]

/-- Endpoint provenance of a resolved edge. -/
theorem mem_resolveEdges (sh : Bool) (b : List GNode) (es : List PEdge) (e : OEdge)
    (he : e ∈ resolveEdges sh (nodeMapOf b) es) :
    e.source ∈ b ∧ e.target ∈ b := by
  rcases List.mem_filterMap.mp he with ⟨pe, hpe, hsome⟩
  by_cases hcond : pe.edgeType = "account_relationship" ∧ sh = false
  · rw [if_pos hcond] at hsome
    exact Option.noConfusion hsome
  · rw [if_neg hcond] at hsome
    cases hs : jsGet (nodeMapOf b) pe.source with
    | none =>
      cases ht : jsGet (nodeMapOf b) pe.target with
      | none => rw [hs, ht] at hsome; exact Option.noConfusion hsome
      | some t => rw [hs, ht] at hsome; exact Option.noConfusion hsome
    | some s =>
      cases ht : jsGet (nodeMapOf b) pe.target with
      | none => rw [hs, ht] at hsome; exact Option.noConfusion hsome
      | some t =>
        rw [hs, ht] at hsome
        obtain rfl := Option.some.inj hsome
        exact ⟨(jsGet_nodeMapOf _ _ _ hs).1, (jsGet_nodeMapOf _ _ _ ht).1⟩

/-- C4 (amended): over payloads that contain no `Moved_To_Company`-typed
node, whose flagged nodes are not the excluded primary Account, and whose
destination ids are fresh and pairwise distinct, the synthetic nodes are
in 1:1 correspondence with the flagged payload nodes: the
`Moved_To_Company` nodes of the output are exactly the synthesised ones,
their count equals the flagged-input count, the synthetic edges' sources
enumerate the flagged nodes in order, and each synthetic node has exactly
one inbound edge in the whole output edge set — its own `moved_to` edge
from its originating node. -/
theorem moved_synthetic_correspondence (w h : ℚ) (pos : Nat → ℚ × ℚ)
    (filters : List String) (sh : Bool) (ns : List GNode) (es : List PEdge)
    (h1 : ∀ n ∈ ns, n.nodeType ≠ "Moved_To_Company")
    (h2 : ∀ n ∈ ns, n.hasMovedCompany = true ∧ n.previousCompany ≠ "" →
      ¬(n.nodeType = "Account" ∧ n.isHierarchyAccount = false ∧ sh = false))
    (h4 : ((synthPairs (baseNodes w h pos filters sh ns) 0).map
        (fun p => p.1.id)).Nodup)
    (h5 : ∀ p ∈ synthPairs (baseNodes w h pos filters sh ns) 0,
      p.1.id ∉ ns.map (fun n => n.id)) :
    ((outNodes w h pos filters sh ns).filter
        (fun n => n.nodeType = "Moved_To_Company")) =
      (synthPairs (baseNodes w h pos filters sh ns) 0).map Prod.fst ∧
    ((outNodes w h pos filters sh ns).filter
        (fun n => n.nodeType = "Moved_To_Company")).length =
      (ns.filter (fun n => n.hasMovedCompany = true ∧ n.previousCompany ≠ "")).length ∧
    ((synthPairs (baseNodes w h pos filters sh ns) 0).map (fun p => p.2.source)) =
      (baseNodes w h pos filters sh ns).filter
        (fun n => n.hasMovedCompany = true ∧ n.previousCompany ≠ "") ∧
    ∀ p ∈ synthPairs (baseNodes w h pos filters sh ns) 0,
      p.2 ∈ outEdges w h pos filters sh ns es ∧
      p.2.edgeType = "moved_to" ∧ p.2.target = p.1 ∧
      p.2.source.previousCompany = p.1.name ∧
      ∀ e ∈ outEdges w h pos filters sh ns es, e.target.id = p.1.id → e = p.2 := by
  have hfilterEq : ((outNodes w h pos filters sh ns).filter
      (fun n => n.nodeType = "Moved_To_Company")) =
      (synthPairs (baseNodes w h pos filters sh ns) 0).map Prod.fst := by
    unfold outNodes
    rw [List.filter_append]
    have hb : ((baseNodes w h pos filters sh ns).filter
        (fun n => n.nodeType = "Moved_To_Company")) = [] := by
      refine List.filter_eq_nil_iff.mpr fun n hn => ?_
      rcases baseNodes_mem w h pos filters sh ns n hn with ⟨x, hx, _, htype, _⟩
      simp only [decide_eq_true_eq]
      rw [htype]
      exact h1 x hx
    have hs : (((synthPairs (baseNodes w h pos filters sh ns) 0).map Prod.fst).filter
        (fun n => n.nodeType = "Moved_To_Company")) =
        (synthPairs (baseNodes w h pos filters sh ns) 0).map Prod.fst := by
      refine List.filter_eq_self.mpr fun n hn => ?_
      rcases List.mem_map.mp hn with ⟨p, hp, rfl⟩
      exact decide_eq_true (synthPairs_edge _ _ _ hp).2.2.2.1
    rw [hb, hs, List.nil_append]
  refine ⟨hfilterEq, ?_, synthPairs_sources _ _, ?_⟩
  · rw [hfilterEq, List.length_map,
      ← List.length_map (synthPairs (baseNodes w h pos filters sh ns) 0)
        (fun p => p.2.source),
      synthPairs_sources, baseNodes_filter_flag_length w h pos filters sh ns h2]
  · intro p hp
    have hinfo := synthPairs_edge _ _ _ hp
    refine ⟨?_, hinfo.2.2.1, hinfo.2.1, hinfo.2.2.2.2.2, ?_⟩
    · unfold outEdges
      exact List.mem_append_right _ (List.mem_map_of_mem _ hp)
    · intro e he hid
      unfold outEdges at he
      rcases List.mem_append.mp he with hres | hsynth
      · exfalso
        have htmem := (mem_resolveEdges _ _ _ _ hres).2
        rcases baseNodes_mem w h pos filters sh ns _ htmem with ⟨x, hx, hxid, _⟩
        exact h5 p hp (by
          rw [← hid, hxid]
          exact List.mem_map_of_mem _ hx)
      · rcases List.mem_map.mp hsynth with ⟨q, hq, rfl⟩
        have hqinfo := synthPairs_edge _ _ _ hq
        have hqid : q.1.id = p.1.id := by rw [← hid, hqinfo.2.1]
        have : q = p := List.inj_on_of_nodup_map h4 hq hp hqid
        rw [this]

/-- A contact flagged as moved to "Acme". -/
def movedContact : GNode :=
  { cNode "n1" with
    hasMovedCompany := true
    previousCompany := "Acme"
    previousCompanyId := "acme1" }

/-- Witness for C4: one flagged contact among two produces exactly one
synthetic destination node, whose single inbound edge is its `moved_to`
edge. -/
theorem moved_synthetic_correspondence_check :
    ((outNodes 800 600 (fun _ => (1/2, 1/2)) [] false
        [movedContact, cNode "n2"]).filter
      (fun n => n.nodeType = "Moved_To_Company")).length = 1 := by
  have h := moved_synthetic_correspondence 800 600 (fun _ => (1/2, 1/2)) [] false
    [movedContact, cNode "n2"] []
    (by decide) (by decide) (by decide) (by decide)
  rw [h.2.1]
  decide

/-- C4 (counterexample): a payload whose node list already contains a
`Moved_To_Company`-typed node that is not flagged as moved.  The node
passes the filter untouched, so the output holds one
`Moved_To_Company` node while zero input nodes are flagged — the claimed
count equality fails. -/
theorem moved_synthetic_count_mismatch :
    ((outNodes 800 600 (fun _ => (1/2, 1/2)) [] false [movedStub]).filter
        (fun n => n.nodeType = "Moved_To_Company")).length = 1 ∧
    (([movedStub] : List GNode).filter
        (fun n => n.hasMovedCompany = true ∧ n.previousCompany ≠ "")).length = 0 := by
  constructor
  · rfl
  · rfl

/-! ## C1 — cluster partition vs. randomized visit order

The source shuffles the Contact list before every pass
(`[...contactNodes].sort(() => Math.random() - 0.5)`) and caps the
propagation at 10 passes.  On a 12-contact path graph the visit order
decides the final partition: a left-to-right order converges to a single
community in one pass, while the right-to-left order still has several
labels alive when the 10-pass cap strikes. -/

def pathIds : List String :=
  ["a", "b", "c", "d", "e", "f", "g", "h", "i", "j", "k", "l"]

def pathNodes : List GNode := pathIds.map cNode

def coEdge (s t : String) : OEdge :=
  { source := cNode s, target := cNode t, edgeType := "co_occurrence",
    strength := 1, interactionCount := 1 }

/-- The 11 unit-weight co-occurrence edges of the path `a – b – … – l`. -/
def pathEdges : List OEdge :=
  (pathIds.zip pathIds.tail).map (fun p => coEdge p.1 p.2)

def fwdOrders : List (List String) := List.replicate 10 pathIds

def revOrders : List (List String) := List.replicate 10 pathIds.reverse

/-- Counterexample to C1: both runs below use valid per-pass visit orders
(each a permutation of the Contact list) and the same input graph, yet
the forward run puts contacts "k" and "l" in the same cluster while the
reverse run separates them — the partition depends on the randomized
visit order. -/
theorem cluster_partition_depends_on_order :
    (∀ o ∈ fwdOrders, o.Perm ((contactNodesOf pathNodes).map (fun n => n.id))) ∧
    (∀ o ∈ revOrders, o.Perm ((contactNodesOf pathNodes).map (fun n => n.id))) ∧
    clusterIdOf (finalLabels pathNodes pathEdges fwdOrders) (cNode "k") =
      clusterIdOf (finalLabels pathNodes pathEdges fwdOrders) (cNode "l") ∧
    clusterIdOf (finalLabels pathNodes pathEdges revOrders) (cNode "k") ≠
      clusterIdOf (finalLabels pathNodes pathEdges revOrders) (cNode "l") := by
  decide

theorem buildAdj_no_co (edges : List OEdge)
    (h : ∀ e ∈ edges, e.edgeType ≠ "co_occurrence") : buildAdj edges = [] := by
  unfold buildAdj
  induction edges with
  | nil => rfl
  | cons e t ih =>
    rw [List.foldl_cons, if_neg (by simpa using h e (List.mem_cons_self _ _))]
    exact ih fun e' he' => h e' (List.mem_cons_of_mem _ he')

theorem lpPass_empty_adj (order : List String) (labels : List (String × Nat)) :
    lpPass [] order labels = (labels, false) := by
  unfold lpPass
  induction order with
  | nil => rfl
  | cons nid t ih =>
    rw [List.foldl_cons]
    show t.foldl _ ((lpVisit [] labels nid).1, false || (lpVisit [] labels nid).2) = _
    rw [show lpVisit [] labels nid = (labels, false) from rfl]
    exact ih

theorem lpLoop_empty_adj (orders : List (List String)) (labels : List (String × Nat)) :
    lpLoop [] orders labels = labels := by
  cases orders with
  | nil => rfl
  | cons o rest =>
    unfold lpLoop
    rw [lpPass_empty_adj]
    rfl

/-- C1 (amended): when the model has no `co_occurrence` edges the
partition is independent of the visit orders — every run returns the
initial labelling (all-singleton clusters).  In general the partition is
NOT independent of the visit order (see
`cluster_partition_depends_on_order`). -/
theorem cluster_partition_stable_without_co_edges (nodes : List GNode)
    (edges : List OEdge) (h : ∀ e ∈ edges, e.edgeType ≠ "co_occurrence")
    (o1 o2 : List (List String)) :
    finalLabels nodes edges o1 = finalLabels nodes edges o2 ∧
    finalLabels nodes edges o1 = initLabels nodes ∧
    ∀ n : GNode, clusterIdOf (finalLabels nodes edges o1) n =
      clusterIdOf (finalLabels nodes edges o2) n := by
  unfold finalLabels
  rw [buildAdj_no_co edges h, lpLoop_empty_adj, lpLoop_empty_adj]
  exact ⟨rfl, rfl, fun n => rfl⟩

/-- Witness for C1 (amended): a one-contact model with an
`opportunity_role` edge yields the same (singleton) labelling for two
different order sequences. -/
theorem cluster_partition_stable_without_co_edges_check :
    finalLabels [cNode "x"]
        [{ source := cNode "x", target := cNode "x", edgeType := "opportunity_role",
           strength := 1, interactionCount := 1 }] [["x"]] =
      finalLabels [cNode "x"]
        [{ source := cNode "x", target := cNode "x", edgeType := "opportunity_role",
           strength := 1, interactionCount := 1 }] [] :=
  (cluster_partition_stable_without_co_edges [cNode "x"] _ (by decide) [["x"]] []).1

/-! ## C10 — clustering invariants: generic map lemmas -/

theorem jsSet_keys_subset {α β : Type} [DecidableEq α] (m : List (α × β)) (k a : α)
    (v : β) (h : a ∈ (jsSet m k v).map Prod.fst) : a = k ∨ a ∈ m.map Prod.fst := by
  induction m with
  | nil => simpa [jsSet] using h
  | cons hd t ih =>
    obtain ⟨k', v'⟩ := hd
    rcases eq_or_ne k' k with hk | hk
    · subst hk
      rw [jsSet, if_pos rfl] at h
      rcases List.mem_map.mp h with ⟨p, hp, rfl⟩
      rcases List.mem_cons.mp hp with rfl | hp2
      · exact Or.inl rfl
      · exact Or.inr (List.mem_map_of_mem _ (List.mem_cons_of_mem _ hp2))
    · rw [jsSet, if_neg hk] at h
      rcases List.mem_map.mp h with ⟨p, hp, rfl⟩
      rcases List.mem_cons.mp hp with rfl | hp2
      · exact Or.inr (List.mem_map_of_mem _ (List.mem_cons_self _ _))
      · rcases ih (List.mem_map_of_mem _ hp2) with h1 | h1
        · exact Or.inl h1
        · exact Or.inr (List.mem_map.mpr
            (by rcases List.mem_map.mp h1 with ⟨q, hq, hqe⟩
                exact ⟨q, List.mem_cons_of_mem _ hq, hqe⟩))

/-- A generic fold of `jsSet` over key/value projections of a list:
presence of a key. -/
theorem jsGet_foldl_jsSet_isSome {α β γ : Type} [DecidableEq α] (f : γ → α) (g : γ → β)
    (xs : List γ) (m : List (α × β)) (k : α)
    (h : k ∈ xs.map f ∨ (jsGet m k).isSome) :
    (jsGet (xs.foldl (fun m p => jsSet m (f p) (g p)) m) k).isSome := by
  induction xs generalizing m with
  | nil =>
    rcases h with h | h
    · simp at h
    · exact h
  | cons x t ih =>
    rw [List.foldl_cons]
    rcases h with h | h
    · rcases List.mem_map.mp h with ⟨w, hw, hwk⟩
      rcases List.mem_cons.mp hw with rfl | hwt
      · refine ih _ (Or.inr ?_)
        rw [hwk, jsGet_jsSet_self]; rfl
      · exact ih _ (Or.inl (List.mem_map.mpr ⟨w, hwt, hwk⟩))
    · exact ih _ (Or.inr (jsGet_jsSet_isSome _ _ _ _ h))

/-- A generic fold of `jsSet`: provenance of a stored value. -/
theorem jsGet_foldl_jsSet_mem {α β γ : Type} [DecidableEq α] (f : γ → α) (g : γ → β)
    (xs : List γ) (m : List (α × β)) (k : α) (v : β)
    (h : jsGet (xs.foldl (fun m p => jsSet m (f p) (g p)) m) k = some v) :
    (∃ p ∈ xs, f p = k ∧ g p = v) ∨ jsGet m k = some v := by
  induction xs generalizing m with
  | nil => exact Or.inr h
  | cons x t ih =>
    rw [List.foldl_cons] at h
    rcases ih _ h with ⟨p, hp, hpk, hpv⟩ | h2
    · exact Or.inl ⟨p, List.mem_cons_of_mem _ hp, hpk, hpv⟩
    · rcases eq_or_ne k (f x) with hk | hk
      · subst hk
        rw [jsGet_jsSet_self] at h2
        exact Or.inl ⟨x, List.mem_cons_self _ _, rfl, Option.some.inj h2⟩
      · rw [jsGet_jsSet_ne _ _ _ _ hk] at h2
        exact Or.inr h2

/-! ## C10 — dedup-first lemmas (`[...new Set(values)]`) -/

theorem mem_dedupFirst (seen l : List Nat) (a : Nat) (h : a ∈ l) :
    a ∈ seen ∨ a ∈ dedupFirst seen l := by
  induction l generalizing seen with
  | nil => simp at h
  | cons b t ih =>
    rw [dedupFirst]
    rcases List.mem_cons.mp h with rfl | ht
    · by_cases hb : a ∈ seen
      · exact Or.inl hb
      · rw [if_neg hb]
        exact Or.inr (List.mem_cons_self _ _)
    · by_cases hb : b ∈ seen
      · rw [if_pos hb]
        exact ih seen ht
      · rw [if_neg hb]
        rcases ih (b :: seen) ht with h1 | h1
        · rcases List.mem_cons.mp h1 with rfl | h2
          · exact Or.inr (List.mem_cons_self _ _)
          · exact Or.inl h2
        · exact Or.inr (List.mem_cons_of_mem _ h1)

theorem dedupFirst_not_mem_seen (seen l : List Nat) (a : Nat)
    (h : a ∈ dedupFirst seen l) : a ∉ seen := by
  induction l generalizing seen with
  | nil => simp [dedupFirst] at h
  | cons b t ih =>
    rw [dedupFirst] at h
    by_cases hb : b ∈ seen
    · rw [if_pos hb] at h
      exact ih seen h
    · rw [if_neg hb] at h
      rcases List.mem_cons.mp h with rfl | h2
      · exact hb
      · intro hs
        exact ih (b :: seen) h2 (List.mem_cons_of_mem _ hs)

theorem dedupFirst_nodup (seen l : List Nat) : (dedupFirst seen l).Nodup := by
  induction l generalizing seen with
  | nil => exact List.nodup_nil
  | cons b t ih =>
    rw [dedupFirst]
    by_cases hb : b ∈ seen
    · rw [if_pos hb]; exact ih seen
    · rw [if_neg hb]
      refine List.nodup_cons.mpr ⟨?_, ih (b :: seen)⟩
      intro hmem
      exact dedupFirst_not_mem_seen _ _ _ hmem (List.mem_cons_self _ _)

/-! ## C10 — analysis of a propagation visit -/

theorem pickBest_mem (l : List (Nat × Nat)) (b0 : Nat × Nat) :
    l.foldl (fun b q => if q.2 > b.2 then q else b) b0 = b0 ∨
      l.foldl (fun b q => if q.2 > b.2 then q else b) b0 ∈ l := by
  induction l generalizing b0 with
  | nil => exact Or.inl rfl
  | cons q t ih =>
    rw [List.foldl_cons]
    rcases ih (if q.2 > b0.2 then q else b0) with h | h
    · rw [h]
      by_cases hq : q.2 > b0.2
      · rw [if_pos hq]
        exact Or.inr (List.mem_cons_self _ _)
      · rw [if_neg hq]
        exact Or.inl rfl
    · exact Or.inr (List.mem_cons_of_mem _ h)

theorem freqOf_keys (labels : List (String × Nat)) (nbrs : List (String × Nat))
    (q : Nat) (h : q ∈ (freqOf labels nbrs).map Prod.fst) :
    ∃ p ∈ nbrs, jsGet labels p.1 = some q := by
  suffices haux : ∀ (l : List (String × Nat)) (acc : List (Nat × Nat)),
      q ∈ ((l.foldl (fun f p =>
        match jsGet labels p.1 with
        | none => f
        | some lb => jsSet f lb ((jsGet f lb).getD 0 + p.2)) acc).map Prod.fst) →
      q ∈ acc.map Prod.fst ∨ ∃ p ∈ l, jsGet labels p.1 = some q by
    rcases haux nbrs [] h with h1 | h1
    · simp at h1
    · exact h1
  intro l
  induction l with
  | nil => exact fun acc h => Or.inl h
  | cons p t ih =>
    intro acc h
    rw [List.foldl_cons] at h
    cases hl : jsGet labels p.1 with
    | none =>
      rw [hl] at h
      rcases ih _ h with h1 | ⟨p2, hp2, hp2l⟩
      · exact Or.inl h1
      · exact Or.inr ⟨p2, List.mem_cons_of_mem _ hp2, hp2l⟩
    | some lb =>
      rw [hl] at h
      rcases ih _ h with h1 | ⟨p2, hp2, hp2l⟩
      · rcases jsSet_keys_subset _ _ _ _ h1 with rfl | h2
        · exact Or.inr ⟨p, List.mem_cons_self _ _, hl⟩
        · exact Or.inl h2
      · exact Or.inr ⟨p2, List.mem_cons_of_mem _ hp2, hp2l⟩

/-- Shape of one visit: either the labels are unchanged, or the visited
node adopts a label held by one of its adjacency-list neighbours. -/
theorem lpVisit_result (adj : List (String × List (String × Nat)))
    (labels : List (String × Nat)) (nid : String) :
    lpVisit adj labels nid = (labels, false) ∨
    ∃ best nbrs p cur,
      jsGet adj nid = some nbrs ∧ p ∈ nbrs ∧ jsGet labels p.1 = some best ∧
      jsGet labels nid = some cur ∧ best ≠ cur ∧
      lpVisit adj labels nid = (jsSet labels nid best, true) := by
  unfold lpVisit
  split
  · exact Or.inl rfl
  rename_i nbrs hadj
  by_cases hnb : nbrs = []
  · rw [if_pos hnb]
    exact Or.inl rfl
  rw [if_neg hnb]
  by_cases hfr : freqOf labels nbrs = []
  · rw [if_pos hfr]
    exact Or.inl rfl
  rw [if_neg hfr]
  split
  · exact Or.inl rfl
  rename_i cur hcur
  by_cases hne : (pickBest cur (freqOf labels nbrs)).1 ≠ cur
  · rw [if_pos hne]
    have hbm : pickBest cur (freqOf labels nbrs) ∈ freqOf labels nbrs := by
      rcases pickBest_mem (freqOf labels nbrs) (cur, 0) with h | h
      · exfalso
        exact hne (by rw [show pickBest cur (freqOf labels nbrs) =
            (freqOf labels nbrs).foldl (fun b q => if q.2 > b.2 then q else b)
              (cur, 0) from rfl, h])
      · exact h
    rcases freqOf_keys labels nbrs _ (List.mem_map_of_mem Prod.fst hbm)
      with ⟨p, hp, hpl⟩
    exact Or.inr ⟨(pickBest cur (freqOf labels nbrs)).1, nbrs, p, cur,
      hadj, hp, hpl, hcur, hne, rfl⟩
  · rw [if_neg hne]
    exact Or.inl rfl

/-- Any property of the label map preserved by a single visit is
preserved by the whole propagation loop. -/
theorem lpLoop_preserves (adj : List (String × List (String × Nat)))
    (P : List (String × Nat) → Prop)
    (hstep : ∀ labels nid, P labels → P (lpVisit adj labels nid).1)
    (orders : List (List String)) (labels : List (String × Nat)) (hP : P labels) :
    P (lpLoop adj orders labels) := by
  have hpass : ∀ (o : List String) (st : List (String × Nat) × Bool), P st.1 →
      P ((o.foldl (fun st nid =>
        ((lpVisit adj st.1 nid).1, st.2 || (lpVisit adj st.1 nid).2)) st).1) := by
    intro o
    induction o with
    | nil => exact fun st h => h
    | cons nid t iht =>
      intro st h
      rw [List.foldl_cons]
      exact iht _ (hstep _ _ h)
  induction orders generalizing labels with
  | nil => exact hP
  | cons o rest ih =>
    unfold lpLoop
    by_cases hchg : (lpPass adj o labels).2
    · rw [if_pos hchg]
      exact ih _ (hpass o (labels, false) hP)
    · rw [if_neg hchg]
      exact hpass o (labels, false) hP

/-! ## C10 — label-map lookups never fail for Contact nodes -/

theorem initLabels_isSome (nodes : List GNode) (n : GNode)
    (hn : n ∈ contactNodesOf nodes) : (jsGet (initLabels nodes) n.id).isSome := by
  unfold initLabels
  refine jsGet_foldl_jsSet_isSome (fun p : Nat × GNode => p.2.id)
    (fun p : Nat × GNode => p.1) _ _ _ (Or.inl ?_)
  have hn2 : n ∈ (contactNodesOf nodes).enum.map Prod.snd := by
    rw [List.enum_map_snd]; exact hn
  rcases List.mem_map.mp hn2 with ⟨p, hp, hpn⟩
  exact List.mem_map.mpr ⟨p, hp, by rw [hpn]⟩

theorem initLabels_inj (nodes : List GNode) (k1 k2 : String) (v : Nat)
    (h1 : jsGet (initLabels nodes) k1 = some v)
    (h2 : jsGet (initLabels nodes) k2 = some v) : k1 = k2 := by
  unfold initLabels at h1 h2
  have e1 := jsGet_foldl_jsSet_mem (fun p : Nat × GNode => p.2.id)
    (fun p : Nat × GNode => p.1) _ _ _ _ h1
  have e2 := jsGet_foldl_jsSet_mem (fun p : Nat × GNode => p.2.id)
    (fun p : Nat × GNode => p.1) _ _ _ _ h2
  rcases e1 with ⟨p, hp, hpk, hpv⟩ | habs
  · rcases e2 with ⟨q, hq, hqk, hqv⟩ | habs
    · obtain ⟨i, x⟩ := p
      obtain ⟨j, y⟩ := q
      simp only at hpk hpv hqk hqv
      subst hpv
      have hx := List.mk_mem_enum_iff_getElem?.mp hp
      have hy := List.mk_mem_enum_iff_getElem?.mp (hqv ▸ hq)
      rw [hx] at hy
      obtain rfl : x = y := Option.some.inj hy
      rw [← hpk, ← hqk]
    · simp [jsGet] at habs
  · simp [jsGet] at habs

theorem mem_uniqueLabels (labels : List (String × Nat)) (v : Nat)
    (h : v ∈ labels.map Prod.snd) : v ∈ uniqueLabels labels := by
  rcases mem_dedupFirst [] _ v h with h1 | h1
  · simp at h1
  · exact h1

theorem labelMapOf_isSome (labels : List (String × Nat)) (lab : Nat)
    (h : lab ∈ uniqueLabels labels) : (jsGet (labelMapOf labels) lab).isSome := by
  unfold labelMapOf
  refine jsGet_foldl_jsSet_isSome (fun p : Nat × Nat => p.2)
    (fun p : Nat × Nat => p.1) _ _ _ (Or.inl ?_)
  have : lab ∈ (uniqueLabels labels).enum.map Prod.snd := by
    rw [List.enum_map_snd]; exact h
  exact this

theorem labelMapOf_inj (labels : List (String × Nat)) (l1 l2 v : Nat)
    (h1 : jsGet (labelMapOf labels) l1 = some v)
    (h2 : jsGet (labelMapOf labels) l2 = some v) : l1 = l2 := by
  unfold labelMapOf at h1 h2
  have e1 := jsGet_foldl_jsSet_mem (fun p : Nat × Nat => p.2)
    (fun p : Nat × Nat => p.1) _ _ _ _ h1
  have e2 := jsGet_foldl_jsSet_mem (fun p : Nat × Nat => p.2)
    (fun p : Nat × Nat => p.1) _ _ _ _ h2
  rcases e1 with ⟨p, hp, hpk, hpv⟩ | habs
  · rcases e2 with ⟨q, hq, hqk, hqv⟩ | habs
    · obtain ⟨i, x⟩ := p
      obtain ⟨j, y⟩ := q
      simp only at hpk hpv hqk hqv
      subst hpv
      have hx := List.mk_mem_enum_iff_getElem?.mp hp
      have hy := List.mk_mem_enum_iff_getElem?.mp (hqv ▸ hq)
      rw [hx] at hy
      obtain rfl : x = y := Option.some.inj hy
      rw [← hpk, ← hqk]
    · simp [jsGet] at habs
  · simp [jsGet] at habs

/-- The final label map still has an entry for every Contact node. -/
theorem finalLabels_isSome (nodes : List GNode) (edges : List OEdge)
    (orders : List (List String)) (n : GNode) (hn : n ∈ contactNodesOf nodes) :
    (jsGet (finalLabels nodes edges orders) n.id).isSome := by
  unfold finalLabels
  refine lpLoop_preserves _ (fun labels => (jsGet labels n.id).isSome) ?_ orders _
    (initLabels_isSome nodes n hn)
  intro labels nid h
  rcases lpVisit_result (buildAdj edges) labels nid with hres | ⟨best, _, _, _, _, _, _, _, _, hres⟩
  · rw [hres]; exact h
  · rw [hres]; exact jsGet_jsSet_isSome _ _ _ _ h

/-- The JS lookup chain
`labelMap.get(labels.get(node.id))` succeeds for every Contact node of
the model, and `clusterIdOf` returns exactly its value (a dense
non-negative id). -/
theorem clusterIdOf_contact_spec (nodes : List GNode) (edges : List OEdge)
    (orders : List (List String)) (n : GNode) (hn : n ∈ nodes)
    (hct : n.nodeType = "Contact") :
    ∃ lab cid, jsGet (finalLabels nodes edges orders) n.id = some lab ∧
      jsGet (labelMapOf (finalLabels nodes edges orders)) lab = some cid ∧
      clusterIdOf (finalLabels nodes edges orders) n = (cid : Int) ∧
      0 ≤ clusterIdOf (finalLabels nodes edges orders) n := by
  have hmem : n ∈ contactNodesOf nodes := by
    unfold contactNodesOf
    exact List.mem_filter.mpr ⟨hn, decide_eq_true hct⟩
  rcases Option.isSome_iff_exists.mp (finalLabels_isSome nodes edges orders n hmem)
    with ⟨lab, hlab⟩
  have hvals : lab ∈ (finalLabels nodes edges orders).map Prod.snd :=
    List.mem_map_of_mem Prod.snd (jsGet_mem _ _ _ hlab)
  rcases Option.isSome_iff_exists.mp
    (labelMapOf_isSome _ lab (mem_uniqueLabels _ lab hvals)) with ⟨cid, hcid⟩
  refine ⟨lab, cid, hlab, hcid, ?_, ?_⟩
  · unfold clusterIdOf
    rw [if_pos hct, hlab]
    show (((jsGet (labelMapOf (finalLabels nodes edges orders)) lab).getD 0 : Nat) : Int)
      = (cid : Int)
    rw [hcid]
    rfl
  · unfold clusterIdOf
    rw [if_pos hct, hlab]
    show (0 : Int) ≤
      (((jsGet (labelMapOf (finalLabels nodes edges orders)) lab).getD 0 : Nat) : Int)
    exact Int.ofNat_nonneg _

theorem clusterIdOf_nonneg (labels : List (String × Nat)) (n : GNode)
    (hct : n.nodeType = "Contact") : 0 ≤ clusterIdOf labels n := by
  unfold clusterIdOf
  rw [if_pos hct]
  cases jsGet labels n.id with
  | none => exact le_refl 0
  | some l => exact Int.ofNat_nonneg _

theorem clusterIdOf_neg_one (labels : List (String × Nat)) (n : GNode)
    (hct : n.nodeType ≠ "Contact") : clusterIdOf labels n = -1 := by
  unfold clusterIdOf
  rw [if_neg hct]

/-! ## C10 — the cluster map groups the nodes by cluster id -/

/-- The cluster-map entry for a key: `none` when no member was pushed. -/
def optOf (l : List GNode) : Option (List GNode) := if l = [] then none else some l

theorem mem_jsSet {α β : Type} [DecidableEq α] (m : List (α × β)) (k : α) (v : β)
    (p : α × β) (h : p ∈ jsSet m k v) : p = (k, v) ∨ p ∈ m := by
  induction m with
  | nil => simpa [jsSet] using h
  | cons hd t ih =>
    obtain ⟨k', v'⟩ := hd
    rcases eq_or_ne k' k with hk | hk
    · subst hk
      rw [jsSet, if_pos rfl] at h
      rcases List.mem_cons.mp h with rfl | h2
      · exact Or.inl rfl
      · exact Or.inr (List.mem_cons_of_mem _ h2)
    · rw [jsSet, if_neg hk] at h
      rcases List.mem_cons.mp h with rfl | h2
      · exact Or.inr (List.mem_cons_self _ _)
      · rcases ih h2 with h3 | h3
        · exact Or.inl h3
        · exact Or.inr (List.mem_cons_of_mem _ h3)

theorem jsSet_keys_nodup {α β : Type} [DecidableEq α] (m : List (α × β)) (k : α) (v : β)
    (h : (m.map Prod.fst).Nodup) : ((jsSet m k v).map Prod.fst).Nodup := by
  induction m with
  | nil => simp [jsSet]
  | cons hd t ih =>
    obtain ⟨k', v'⟩ := hd
    rw [List.map_cons, List.nodup_cons] at h
    rcases eq_or_ne k' k with hk | hk
    · subst hk
      rw [jsSet, if_pos rfl, List.map_cons]
      exact List.nodup_cons.mpr h
    · rw [jsSet, if_neg hk, List.map_cons]
      refine List.nodup_cons.mpr ⟨?_, ih h.2⟩
      intro hmem
      rcases jsSet_keys_subset _ _ _ _ hmem with rfl | h2
      · exact hk rfl
      · exact h.1 h2

/-- The per-key contents of the cluster map: exactly the nodes whose
cluster id is that key, in node order. -/
theorem clustersOf_get (nodes : List GNode) (labels : List (String × Nat))
    (k : Int) (hk : 0 ≤ k) :
    jsGet (clustersOf nodes labels) k =
      optOf (nodes.filter (fun n => clusterIdOf labels n = k)) := by
  suffices haux : ∀ (l : List GNode) (cm : List (Int × List GNode))
      (g : Int → List GNode),
      (∀ j : Int, 0 ≤ j → jsGet cm j = optOf (g j)) →
      ∀ j : Int, 0 ≤ j →
        jsGet (l.foldl (fun cm n =>
          if clusterIdOf labels n < 0 then cm
          else jsSet cm (clusterIdOf labels n)
            ((jsGet cm (clusterIdOf labels n)).getD [] ++ [n])) cm) j =
          optOf (g j ++ l.filter (fun n => clusterIdOf labels n = j)) by
    have h0 : ∀ j : Int, 0 ≤ j →
        jsGet ([] : List (Int × List GNode)) j = optOf ((fun _ => []) j) := by
      intro j _; rfl
    have := haux nodes [] (fun _ => []) h0 k hk
    simpa [clustersOf] using this
  intro l
  induction l with
  | nil =>
    intro cm g hg j hj
    rw [List.foldl_nil, List.filter_nil, List.append_nil]
    exact hg j hj
  | cons n t ih =>
    intro cm g hg j hj
    rw [List.foldl_cons]
    by_cases hcid : clusterIdOf labels n < 0
    · rw [if_pos hcid]
      have hfil : (List.filter (fun n => clusterIdOf labels n = j) (n :: t)) =
          List.filter (fun n => clusterIdOf labels n = j) t := by
        rw [List.filter_cons_of_neg]
        simp only [decide_eq_true_eq]
        intro h
        rw [h] at hcid
        exact absurd hj (not_le.mpr hcid)
      rw [hfil]
      exact ih cm g hg j hj
    · rw [if_neg hcid]
      have hstep : ∀ j2 : Int, 0 ≤ j2 →
          jsGet (jsSet cm (clusterIdOf labels n)
              ((jsGet cm (clusterIdOf labels n)).getD [] ++ [n])) j2 =
            optOf ((fun j3 => g j3 ++ if clusterIdOf labels n = j3 then [n] else []) j2) := by
        intro j2 hj2
        show jsGet (jsSet cm (clusterIdOf labels n)
            ((jsGet cm (clusterIdOf labels n)).getD [] ++ [n])) j2 =
          optOf (g j2 ++ if clusterIdOf labels n = j2 then [n] else [])
        rcases eq_or_ne j2 (clusterIdOf labels n) with hj3 | hj3
        · rw [hj3, jsGet_jsSet_self, hg (clusterIdOf labels n) (hj3 ▸ hj2), if_pos rfl]
          unfold optOf
          by_cases hge : g (clusterIdOf labels n) = []
          · rw [if_pos hge, hge, if_neg (by simp)]
            rfl
          · rw [if_neg hge, if_neg (by simp [hge])]
            rfl
        · rw [jsGet_jsSet_ne _ _ _ _ hj3, hg j2 hj2,
            if_neg (fun hx => hj3 hx.symm), List.append_nil]
      have hres := ih _ (fun j3 => g j3 ++ if clusterIdOf labels n = j3 then [n] else [])
        hstep j hj
      rw [hres]
      show optOf ((g j ++ if clusterIdOf labels n = j then [n] else []) ++
          List.filter (fun n => clusterIdOf labels n = j) t) = _
      congr 1
      by_cases hjn : clusterIdOf labels n = j <;>
        simp [List.filter_cons, hjn, List.append_assoc]

/-- Every member list of the cluster map holds exactly nodes of that
cluster id. -/
theorem clustersOf_members (nodes : List GNode) (labels : List (String × Nat)) :
    ∀ p ∈ clustersOf nodes labels, ∀ m ∈ p.2, clusterIdOf labels m = p.1 := by
  suffices haux : ∀ (l : List GNode) (cm : List (Int × List GNode)),
      (∀ p ∈ cm, ∀ m ∈ p.2, clusterIdOf labels m = p.1) →
      ∀ p ∈ (l.foldl (fun cm n =>
          if clusterIdOf labels n < 0 then cm
          else jsSet cm (clusterIdOf labels n)
            ((jsGet cm (clusterIdOf labels n)).getD [] ++ [n])) cm),
        ∀ m ∈ p.2, clusterIdOf labels m = p.1 by
    exact haux nodes [] (by intro p hp; simp at hp)
  intro l
  induction l with
  | nil => exact fun cm h => h
  | cons n t ih =>
    intro cm hcm
    rw [List.foldl_cons]
    by_cases hcid : clusterIdOf labels n < 0
    · rw [if_pos hcid]
      exact ih cm hcm
    · rw [if_neg hcid]
      refine ih _ ?_
      intro p hp m hm
      rcases mem_jsSet _ _ _ _ hp with rfl | hp2
      · simp only
        rcases List.mem_append.mp hm with hold | hnew
        · cases hget : jsGet cm (clusterIdOf labels n) with
          | none => rw [hget] at hold; simp at hold
          | some old =>
            rw [hget] at hold
            exact hcm _ (jsGet_mem _ _ _ hget) m hold
        · rw [List.mem_singleton.mp hnew]
      · exact hcm p hp2 m hm

theorem clustersOf_keys_nodup (nodes : List GNode) (labels : List (String × Nat)) :
    ((clustersOf nodes labels).map Prod.fst).Nodup := by
  suffices haux : ∀ (l : List GNode) (cm : List (Int × List GNode)),
      ((cm.map Prod.fst).Nodup) →
      (((l.foldl (fun cm n =>
          if clusterIdOf labels n < 0 then cm
          else jsSet cm (clusterIdOf labels n)
            ((jsGet cm (clusterIdOf labels n)).getD [] ++ [n])) cm).map Prod.fst).Nodup) by
    exact haux nodes [] List.nodup_nil
  intro l
  induction l with
  | nil => exact fun cm h => h
  | cons n t ih =>
    intro cm hcm
    rw [List.foldl_cons]
    by_cases hcid : clusterIdOf labels n < 0
    · rw [if_pos hcid]
      exact ih cm hcm
    · rw [if_neg hcid]
      exact ih _ (jsSet_keys_nodup _ _ _ hcm)

/-! ## C10 — the member lists jointly enumerate the clustered nodes -/

theorem jsSet_append_join (cm : List (Int × List GNode)) (k : Int) (n : GNode) :
    (((jsSet cm k ((jsGet cm k).getD [] ++ [n])).map Prod.snd).flatten).Perm
      ((cm.map Prod.snd).flatten ++ [n]) := by
  induction cm with
  | nil => simp [jsSet, jsGet]
  | cons hd t ih =>
    obtain ⟨k', v⟩ := hd
    rcases eq_or_ne k' k with hk | hk
    · subst hk
      rw [show jsGet ((k', v) :: t) k' = some v by rw [jsGet, if_pos rfl]]
      rw [show jsSet ((k', v) :: t) k' ((some v).getD [] ++ [n]) =
          (k', v ++ [n]) :: t by rw [jsSet, if_pos rfl]; rfl]
      show ((v ++ [n]) ++ ((t.map Prod.snd).flatten)).Perm
        ((v ++ (t.map Prod.snd).flatten) ++ [n])
      rw [List.append_assoc, List.append_assoc]
      exact List.Perm.append_left v (List.perm_append_comm)
    · rw [show jsGet ((k', v) :: t) k = jsGet t k by
          rw [jsGet, if_neg hk]]
      rw [show jsSet ((k', v) :: t) k ((jsGet t k).getD [] ++ [n]) =
          (k', v) :: jsSet t k ((jsGet t k).getD [] ++ [n]) by rw [jsSet, if_neg hk]]
      show (v ++ ((jsSet t k ((jsGet t k).getD [] ++ [n])).map Prod.snd).flatten).Perm
        ((v ++ (t.map Prod.snd).flatten) ++ [n])
      rw [List.append_assoc]
      exact List.Perm.append_left v ih

theorem clustersOf_join_perm (nodes : List GNode) (labels : List (String × Nat)) :
    ((clustersOf nodes labels).map Prod.snd).flatten.Perm
      (nodes.filter (fun n => ¬clusterIdOf labels n < 0)) := by
  suffices haux : ∀ (l : List GNode) (cm : List (Int × List GNode)),
      ((l.foldl (fun cm n =>
          if clusterIdOf labels n < 0 then cm
          else jsSet cm (clusterIdOf labels n)
            ((jsGet cm (clusterIdOf labels n)).getD [] ++ [n])) cm).map Prod.snd).flatten.Perm
        ((cm.map Prod.snd).flatten ++ l.filter (fun n => ¬clusterIdOf labels n < 0)) by
    have := haux nodes []
    simpa [clustersOf] using this
  intro l
  induction l with
  | nil =>
    intro cm
    rw [List.foldl_nil, List.filter_nil, List.append_nil]
  | cons n t ih =>
    intro cm
    rw [List.foldl_cons]
    by_cases hcid : clusterIdOf labels n < 0
    · rw [if_pos hcid, List.filter_cons_of_neg (by simpa using hcid)]
      exact ih cm
    · rw [if_neg hcid, List.filter_cons_of_pos (by simpa using hcid)]
      refine (ih _).trans ?_
      have hstep := jsSet_append_join cm (clusterIdOf labels n) n
      refine (List.Perm.append_right _ hstep).trans ?_
      rw [List.append_assoc]
      exact List.Perm.refl _

/-! ## C10 — isolated contacts stay in their own singleton cluster -/

theorem buildAdj_isolated (edges : List OEdge) (cid : String)
    (h : ∀ e ∈ edges, e.edgeType = "co_occurrence" →
      e.source.id ≠ cid ∧ e.target.id ≠ cid) :
    jsGet (buildAdj edges) cid = none := by
  suffices haux : ∀ (es : List OEdge) (m : List (String × List (String × Nat))),
      (∀ e ∈ es, e.edgeType = "co_occurrence" →
        e.source.id ≠ cid ∧ e.target.id ≠ cid) →
      jsGet m cid = none →
      jsGet (es.foldl (fun adj e =>
        if e.edgeType = "co_occurrence" then
          adjPush (adjPush adj e.source.id
            (e.target.id, if e.interactionCount = 0 then 1 else e.interactionCount))
            e.target.id
            (e.source.id, if e.interactionCount = 0 then 1 else e.interactionCount)
        else adj) m) cid = none by
    exact haux edges [] h rfl
  intro es
  induction es with
  | nil => exact fun m _ hm => hm
  | cons e t ih =>
    intro m hall hm
    rw [List.foldl_cons]
    by_cases hco : e.edgeType = "co_occurrence"
    · rw [if_pos hco]
      have hend := hall e (List.mem_cons_self _ _) hco
      refine ih _ (fun e' he' => hall e' (List.mem_cons_of_mem _ he')) ?_
      unfold adjPush
      rw [jsGet_jsSet_ne _ _ _ _ (fun hx => hend.2 hx.symm),
        jsGet_jsSet_ne _ _ _ _ (fun hx => hend.1 hx.symm)]
      exact hm
    · rw [if_neg hco]
      exact ih _ (fun e' he' => hall e' (List.mem_cons_of_mem _ he')) hm

theorem adjPush_values (C : String × Nat → Prop)
    (m : List (String × List (String × Nat))) (k : String) (v : String × Nat)
    (hm : ∀ k2 nbrs, jsGet m k2 = some nbrs → ∀ p ∈ nbrs, C p) (hv : C v) :
    ∀ k2 nbrs, jsGet (adjPush m k v) k2 = some nbrs → ∀ p ∈ nbrs, C p := by
  intro k2 nbrs hget p hp
  unfold adjPush at hget
  rcases eq_or_ne k2 k with hk | hk
  · subst hk
    rw [jsGet_jsSet_self] at hget
    obtain rfl := Option.some.inj hget
    rcases List.mem_append.mp hp with hold | hnew
    · cases hg : jsGet m k2 with
      | none => rw [hg] at hold; simp at hold
      | some old =>
        rw [hg] at hold
        exact hm _ _ hg p hold
    · rw [List.mem_singleton.mp hnew]
      exact hv
  · rw [jsGet_jsSet_ne _ _ _ _ hk] at hget
    exact hm _ _ hget p hp

theorem buildAdj_values (C : String × Nat → Prop) (edges : List OEdge)
    (hC : ∀ e ∈ edges, e.edgeType = "co_occurrence" →
      C (e.target.id, if e.interactionCount = 0 then 1 else e.interactionCount) ∧
      C (e.source.id, if e.interactionCount = 0 then 1 else e.interactionCount)) :
    ∀ k nbrs, jsGet (buildAdj edges) k = some nbrs → ∀ p ∈ nbrs, C p := by
  suffices haux : ∀ (es : List OEdge) (m : List (String × List (String × Nat))),
      (∀ e ∈ es, e.edgeType = "co_occurrence" →
        C (e.target.id, if e.interactionCount = 0 then 1 else e.interactionCount) ∧
        C (e.source.id, if e.interactionCount = 0 then 1 else e.interactionCount)) →
      (∀ k nbrs, jsGet m k = some nbrs → ∀ p ∈ nbrs, C p) →
      ∀ k nbrs, jsGet (es.foldl (fun adj e =>
        if e.edgeType = "co_occurrence" then
          adjPush (adjPush adj e.source.id
            (e.target.id, if e.interactionCount = 0 then 1 else e.interactionCount))
            e.target.id
            (e.source.id, if e.interactionCount = 0 then 1 else e.interactionCount)
        else adj) m) k = some nbrs → ∀ p ∈ nbrs, C p by
    refine haux edges [] hC ?_
    intro k nbrs hget
    simp [jsGet] at hget
  intro es
  induction es with
  | nil => exact fun m _ hm => hm
  | cons e t ih =>
    intro m hall hm
    rw [List.foldl_cons]
    by_cases hco : e.edgeType = "co_occurrence"
    · rw [if_pos hco]
      have hCe := hall e (List.mem_cons_self _ _) hco
      exact ih _ (fun e' he' => hall e' (List.mem_cons_of_mem _ he'))
        (adjPush_values C _ _ _ (adjPush_values C _ _ _ hm hCe.1) hCe.2)
    · rw [if_neg hco]
      exact ih _ (fun e' he' => hall e' (List.mem_cons_of_mem _ he')) hm

/-- An isolated Contact keeps its unique initial label, and no other key
ever holds that label. -/
theorem finalLabels_isolated (nodes : List GNode) (edges : List OEdge)
    (orders : List (List String)) (c : GNode) (hmemc : c ∈ contactNodesOf nodes)
    (hiso : ∀ e ∈ edges, e.edgeType = "co_occurrence" →
      e.source.id ≠ c.id ∧ e.target.id ≠ c.id) :
    ∃ ic, jsGet (finalLabels nodes edges orders) c.id = some ic ∧
      ∀ k, k ≠ c.id → jsGet (finalLabels nodes edges orders) k ≠ some ic := by
  rcases Option.isSome_iff_exists.mp (initLabels_isSome nodes c hmemc) with ⟨ic, hic⟩
  refine ⟨ic, ?_⟩
  unfold finalLabels
  refine lpLoop_preserves (buildAdj edges)
    (fun labels => jsGet labels c.id = some ic ∧
      ∀ k, k ≠ c.id → jsGet labels k ≠ some ic) ?_ orders _ ⟨hic, ?_⟩
  · intro labels nid hPl
    rcases lpVisit_result (buildAdj edges) labels nid with hres |
      ⟨best, nbrs, p, cur, hadj, hp, hpl, hcur, hne, hres⟩
    · rw [hres]; exact hPl
    · have hnid : nid ≠ c.id := by
        intro hx
        rw [hx, buildAdj_isolated edges c.id hiso] at hadj
        exact Option.noConfusion hadj
      rw [hres]
      refine ⟨?_, ?_⟩
      · show jsGet (jsSet labels nid best) c.id = some ic
        rw [jsGet_jsSet_ne _ _ _ _ (fun hx => hnid hx.symm)]
        exact hPl.1
      · intro k hk
        show jsGet (jsSet labels nid best) k ≠ some ic
        rcases eq_or_ne k nid with hk2 | hk2
        · rw [hk2, jsGet_jsSet_self]
          intro hcon
          obtain rfl := Option.some.inj hcon
          have hCend : ∀ e ∈ edges, e.edgeType = "co_occurrence" →
              e.target.id ≠ c.id ∧ e.source.id ≠ c.id := fun e he hco =>
            ⟨(hiso e he hco).2, (hiso e he hco).1⟩
          have hpne : p.1 ≠ c.id :=
            buildAdj_values (fun q => q.1 ≠ c.id) edges hCend nid nbrs hadj p hp
          exact hPl.2 p.1 hpne hpl
        · rw [jsGet_jsSet_ne _ _ _ _ hk2]
          exact hPl.2 k hk
  · intro k hk hcon
    exact hk (initLabels_inj nodes k c.id ic hcon hic)

theorem filter_eq_singleton_of (l : List GNode) (p : GNode → Bool) (c : GNode)
    (hnd : l.Nodup) (hc : c ∈ l) (hiff : ∀ n ∈ l, p n = true ↔ n = c) :
    l.filter p = [c] := by
  induction l with
  | nil => simp at hc
  | cons a t ih =>
    rcases List.nodup_cons.mp hnd with ⟨hat, hnt⟩
    rcases List.mem_cons.mp hc with rfl | hct
    · rw [List.filter_cons_of_pos ((hiff c (List.mem_cons_self _ _)).mpr rfl)]
      have ht : t.filter p = [] := by
        refine List.filter_eq_nil_iff.mpr fun n hn hp => ?_
        exact hat (((hiff n (List.mem_cons_of_mem _ hn)).mp hp) ▸ hn)
      rw [ht]
    · have hac : a ≠ c := fun h => hat (h ▸ hct)
      rw [List.filter_cons_of_neg (fun hp =>
        hac ((hiff a (List.mem_cons_self _ _)).mp hp))]
      exact ih hnt hct (fun n hn => hiff n (List.mem_cons_of_mem _ hn))

/-- An isolated Contact ends up in a singleton cluster: the member list
stored under its cluster id is exactly `[c]`. -/
theorem isolated_contact_singleton (nodes : List GNode) (edges : List OEdge)
    (orders : List (List String)) (c : GNode)
    (hids : (nodes.map (fun n => n.id)).Nodup) (hcn : c ∈ nodes)
    (hct : c.nodeType = "Contact")
    (hiso : ∀ e ∈ edges, e.edgeType = "co_occurrence" →
      e.source.id ≠ c.id ∧ e.target.id ≠ c.id) :
    jsGet (clustersOf nodes (finalLabels nodes edges orders))
      (clusterIdOf (finalLabels nodes edges orders) c) = some [c] := by
  have hmemc : c ∈ contactNodesOf nodes :=
    List.mem_filter.mpr ⟨hcn, decide_eq_true hct⟩
  rcases finalLabels_isolated nodes edges orders c hmemc hiso with ⟨ic, hic, huniq⟩
  rcases clusterIdOf_contact_spec nodes edges orders c hcn hct
    with ⟨lab, cid, hlab, hcid, hceq, hpos⟩
  have hlabic : lab = ic := by
    rw [hic] at hlab
    exact (Option.some.inj hlab).symm
  rw [clustersOf_get nodes (finalLabels nodes edges orders) _ hpos]
  have hfil : nodes.filter (fun n =>
      clusterIdOf (finalLabels nodes edges orders) n =
        clusterIdOf (finalLabels nodes edges orders) c) = [c] := by
    refine filter_eq_singleton_of _ _ c (List.Nodup.of_map _ hids) hcn ?_
    intro n hn
    constructor
    · intro hp
      have hpn : clusterIdOf (finalLabels nodes edges orders) n =
          clusterIdOf (finalLabels nodes edges orders) c := of_decide_eq_true hp
      by_cases hct2 : n.nodeType = "Contact"
      · rcases clusterIdOf_contact_spec nodes edges orders n hn hct2
          with ⟨lab2, cid2, hlab2, hcid2, hceq2, _⟩
        have hcidEq : cid2 = cid := by
          rw [hceq2, hceq] at hpn
          exact_mod_cast hpn
        have hlabEq : lab2 = lab :=
          labelMapOf_inj (finalLabels nodes edges orders) lab2 lab cid
            (hcidEq ▸ hcid2) hcid
        have hnid : n.id = c.id := by
          by_contra hne
          exact huniq n.id hne (by rw [hlab2, hlabEq, hlabic])
        exact List.inj_on_of_nodup_map hids hn hcn hnid
      · exfalso
        rw [clusterIdOf_neg_one _ n hct2] at hpn
        rw [← hpn] at hpos
        exact absurd hpos (by norm_num)
    · intro he
      rw [he]
      exact decide_eq_true rfl
  rw [hfil]
  rfl

/-- C10: after cluster detection on any model with unique node ids, the
JS lookup chain succeeds for every Contact and gives it a non-negative
dense cluster id; every non-Contact node gets `-1`; the cluster map's
keys are distinct, its member lists jointly enumerate exactly the
Contact nodes, and each member sits under its own cluster id; a Contact
with no co-occurrence edge forms its own singleton cluster. -/
theorem computeClusters_partition (nodes : List GNode) (edges : List OEdge)
    (orders : List (List String)) (hids : (nodes.map (fun n => n.id)).Nodup) :
    (∀ n ∈ nodes, n.nodeType = "Contact" →
      ∃ lab cid, jsGet (finalLabels nodes edges orders) n.id = some lab ∧
        jsGet (labelMapOf (finalLabels nodes edges orders)) lab = some cid ∧
        clusterIdOf (finalLabels nodes edges orders) n = (cid : Int) ∧
        0 ≤ clusterIdOf (finalLabels nodes edges orders) n) ∧
    (∀ n : GNode, n.nodeType ≠ "Contact" →
      clusterIdOf (finalLabels nodes edges orders) n = -1) ∧
    ((clustersOf nodes (finalLabels nodes edges orders)).map Prod.fst).Nodup ∧
    ((clustersOf nodes (finalLabels nodes edges orders)).map
      Prod.snd).flatten.Perm (contactNodesOf nodes) ∧
    (∀ p ∈ clustersOf nodes (finalLabels nodes edges orders), ∀ m ∈ p.2,
      clusterIdOf (finalLabels nodes edges orders) m = p.1) ∧
    (∀ c ∈ nodes, c.nodeType = "Contact" →
      (∀ e ∈ edges, e.edgeType = "co_occurrence" →
        e.source.id ≠ c.id ∧ e.target.id ≠ c.id) →
      jsGet (clustersOf nodes (finalLabels nodes edges orders))
        (clusterIdOf (finalLabels nodes edges orders) c) = some [c]) := by
  refine ⟨fun n hn hct => clusterIdOf_contact_spec nodes edges orders n hn hct,
    fun n hct => clusterIdOf_neg_one _ n hct,
    clustersOf_keys_nodup nodes _, ?_,
    clustersOf_members nodes _,
    fun c hc hct hiso => isolated_contact_singleton nodes edges orders c hids hc hct hiso⟩
  have hperm := clustersOf_join_perm nodes (finalLabels nodes edges orders)
  have hfeq : nodes.filter
      (fun n => ¬clusterIdOf (finalLabels nodes edges orders) n < 0) =
      contactNodesOf nodes := by
    unfold contactNodesOf
    refine List.filter_congr fun n _ => ?_
    by_cases hcnt : n.nodeType = "Contact"
    · simp [hcnt, not_lt.mpr (clusterIdOf_nonneg (finalLabels nodes edges orders) n hcnt)]
    · simp [hcnt, clusterIdOf_neg_one (finalLabels nodes edges orders) n hcnt]
  rw [hfeq] at hperm
  exact hperm

/-- Witness for C10: two linked contacts plus an isolated one and a
non-Contact node — the isolated contact is a singleton cluster and the
non-Contact gets cluster id `-1`. -/
theorem computeClusters_partition_check :
    jsGet (clustersOf [cNode "a", cNode "b", cNode "c", movedStub]
        (finalLabels [cNode "a", cNode "b", cNode "c", movedStub]
          [coEdge "a" "b"] [["a", "b", "c"]]))
      (clusterIdOf (finalLabels [cNode "a", cNode "b", cNode "c", movedStub]
          [coEdge "a" "b"] [["a", "b", "c"]]) (cNode "c")) = some [cNode "c"] ∧
    clusterIdOf (finalLabels [cNode "a", cNode "b", cNode "c", movedStub]
        [coEdge "a" "b"] [["a", "b", "c"]]) movedStub = -1 := by
  have h := computeClusters_partition [cNode "a", cNode "b", cNode "c", movedStub]
    [coEdge "a" "b"] [["a", "b", "c"]] (by decide)
  exact ⟨h.2.2.2.2.2 (cNode "c") (by decide) (by decide) (by decide),
    h.2.1 movedStub (by decide)⟩

/-! ## C5 — `convexHull(points)` (Andrew monotone chain, source lines 409–432)

A point is a pair `[x, y]`.  The sort comparator
`(a, b) => a[0] - b[0] || a[1] - b[1]` orders points lexicographically
(x first, then y) and returns 0 only on identical pairs, so every
correct implementation of `Array.sort` returns the same, unique,
lexicographically sorted permutation; we model the sort by insertion
sort over that order. -/

abbrev Pt := ℚ × ℚ

/-- Default point for `List.getD` index access. -/
def pd : Pt := (0, 0)

/-- `cross(O, A, B)` from the source: the z-component of
`(A - O) × (B - O)`. -/
def cross (o a b : Pt) : ℚ :=
  (a.1 - o.1) * (b.2 - o.2) - (a.2 - o.2) * (b.1 - o.1)

/-- `comparator(a, b) < 0`: strict lexicographic order. -/
def lexLt (a b : Pt) : Prop := a.1 < b.1 ∨ (a.1 = b.1 ∧ a.2 < b.2)

/-- `comparator(a, b) ≤ 0`: lexicographic order. -/
def lexLe (a b : Pt) : Prop := a.1 < b.1 ∨ (a.1 = b.1 ∧ a.2 ≤ b.2)

instance (a b : Pt) : Decidable (lexLt a b) := by unfold lexLt; infer_instance

instance (a b : Pt) : Decidable (lexLe a b) := by unfold lexLe; infer_instance

instance : DecidableRel lexLe := fun _ _ => inferInstance

instance : IsTotal Pt lexLe := by
  constructor
  intro a b
  unfold lexLe
  rcases lt_trichotomy a.1 b.1 with h | h | h
  · exact Or.inl (Or.inl h)
  · rcases le_total a.2 b.2 with h2 | h2
    · exact Or.inl (Or.inr ⟨h, h2⟩)
    · exact Or.inr (Or.inr ⟨h.symm, h2⟩)
  · exact Or.inr (Or.inl h)

instance : IsTrans Pt lexLe := by
  constructor
  intro a b c hab hbc
  unfold lexLe at *
  rcases hab with h1 | ⟨h1, h1'⟩ <;> rcases hbc with h2 | ⟨h2, h2'⟩
  · exact Or.inl (lt_trans h1 h2)
  · exact Or.inl (h2 ▸ h1)
  · exact Or.inl (h1 ▸ h2)
  · exact Or.inr ⟨h1.trans h2, h1'.trans h2'⟩

/-- `[...points].sort((a, b) => a[0] - b[0] || a[1] - b[1])`. -/
def sortLex (points : List Pt) : List Pt := List.insertionSort lexLe points

/-- The inner `while (chain.length >= 2 && cross(...) <= 0) chain.pop()`
loop; the chain is stored top-first (head = most recently pushed). -/
def popWhile (p : Pt) : List Pt → List Pt
  | a :: b :: t => if cross b a p ≤ 0 then popWhile p (b :: t) else a :: b :: t
  | l => l

/-- One chain-building `for` loop over `l`, chain kept top-first. -/
def chainRev (l : List Pt) : List Pt :=
  l.foldl (fun st q => q :: popWhile q st) []

/-- A finished chain in traversal order. -/
def buildChain (l : List Pt) : List Pt := (chainRev l).reverse

/-- `convexHull(points)`: short inputs returned as-is; otherwise the
lower chain over the sorted points and the upper chain over the
reversed sorted points, each with its final element popped,
concatenated. -/
def convexHull (points : List Pt) : List Pt :=
  if points.length < 3 then points
  else
    (buildChain (sortLex points)).dropLast ++
      (buildChain (sortLex points).reverse).dropLast

/-- Cyclic vertex access into a polygon's vertex list. -/
def cyc (l : List Pt) (i : Nat) : Pt := l.getD (i % l.length) pd

/-- The reversed chain is strictly lex-decreasing (top is largest). -/
def decLex : List Pt → Prop
  | a :: b :: t => lexLt b a ∧ decLex (b :: t)
  | _ => True

/-- Every consecutive triple of the reversed chain is a strict
counterclockwise turn (in traversal order). -/
def turnsRev : List Pt → Prop
  | a :: b :: c :: t => 0 < cross c b a ∧ turnsRev (b :: c :: t)
  | _ => True

/-- `q` lies on or to the left of every (traversal-order) edge of the
reversed chain. -/
def edgesAbove : List Pt → Pt → Prop
  | a :: b :: t, q => 0 ≤ cross b a q ∧ edgesAbove (b :: t) q
  | _, _ => True

/-- Index form of the half-plane property, chain in traversal order. -/
def EdgesOK (C : List Pt) (q : Pt) : Prop :=
  ∀ i, i + 1 < C.length → 0 ≤ cross (C.getD i pd) (C.getD (i + 1) pd) q

/-- Index form of strict convex turning, chain in traversal order. -/
def TurnsOK (C : List Pt) : Prop :=
  ∀ i, i + 2 < C.length →
    0 < cross (C.getD i pd) (C.getD (i + 1) pd) (C.getD (i + 2) pd)

/-- Point negation, used to derive upper-chain facts from lower-chain
facts. -/
def pneg (p : Pt) : Pt := (-p.1, -p.2)

theorem cross_right_self (o a : Pt) : cross o a a = 0 := by unfold cross; ring

theorem cross_outer (o a : Pt) : cross o a o = 0 := by unfold cross; ring

theorem cross_flip (a b q : Pt) : cross b a q = -cross a b q := by
  unfold cross; ring

theorem cross_pneg (o a b : Pt) :
    cross (pneg o) (pneg a) (pneg b) = cross o a b := by
  unfold cross pneg; ring

theorem pneg_pneg (p : Pt) : pneg (pneg p) = p := by
  unfold pneg; simp

theorem lexLt_x (a b : Pt) (h : lexLt a b) : a.1 ≤ b.1 := by
  rcases h with h | ⟨h, _⟩
  · exact le_of_lt h
  · exact le_of_eq h

theorem lexLe_x (a b : Pt) (h : lexLe a b) : a.1 ≤ b.1 := by
  rcases h with h | ⟨h, _⟩
  · exact le_of_lt h
  · exact le_of_eq h

theorem lexLe_of_lt (a b : Pt) (h : lexLt a b) : lexLe a b := by
  rcases h with h | ⟨h, h2⟩
  · exact Or.inl h
  · exact Or.inr ⟨h, le_of_lt h2⟩

theorem lexLe_refl (a : Pt) : lexLe a a := Or.inr ⟨rfl, le_refl _⟩

theorem lexLt_trans (a b c : Pt) (h1 : lexLt a b) (h2 : lexLt b c) :
    lexLt a c := by
  rcases h1 with h1 | ⟨h1, h1'⟩ <;> rcases h2 with h2 | ⟨h2, h2'⟩
  · exact Or.inl (lt_trans h1 h2)
  · exact Or.inl (h2 ▸ h1)
  · exact Or.inl (h1 ▸ h2)
  · exact Or.inr ⟨h1.trans h2, lt_trans h1' h2'⟩

theorem lexLt_lexLe_trans (a b c : Pt) (h1 : lexLt a b) (h2 : lexLe b c) :
    lexLt a c := by
  rcases h1 with h1 | ⟨h1, h1'⟩ <;> rcases h2 with h2 | ⟨h2, h2'⟩
  · exact Or.inl (lt_trans h1 h2)
  · exact Or.inl (h2 ▸ h1)
  · exact Or.inl (h1 ▸ h2)
  · exact Or.inr ⟨h1.trans h2, lt_of_lt_of_le h1' h2'⟩

theorem lexLt_ne (a b : Pt) (h : lexLt a b) : a ≠ b := by
  intro he
  rcases h with h | ⟨_, h⟩
  · exact absurd h (he ▸ lt_irrefl _)
  · exact absurd h (he ▸ lt_irrefl _)

theorem lexLt_of_not_le (a b : Pt) (h : ¬lexLe a b) : lexLt b a := by
  unfold lexLe at h
  push_neg at h
  rcases lt_trichotomy b.1 a.1 with h1 | h1 | h1
  · exact Or.inl h1
  · exact Or.inr ⟨h1, h.2 h1.symm⟩
  · exact absurd h1 (not_lt.mpr h.1)

theorem lexLe_antisymm (a b : Pt) (h1 : lexLe a b) (h2 : lexLe b a) :
    a = b := by
  rcases h1 with h1 | ⟨h1, h1'⟩ <;> rcases h2 with h2 | ⟨h2, h2'⟩
  · exact absurd h2 (asymm h1)
  · exact absurd h1 (h2 ▸ lt_irrefl _)
  · exact absurd h2 (h1 ▸ lt_irrefl _)
  · exact Prod.ext h1 (le_antisymm h1' h2')

theorem lexLt_of_le_ne (a b : Pt) (h1 : lexLe a b) (h2 : a ≠ b) :
    lexLt a b := by
  rcases h1 with h1 | ⟨h1, h1'⟩
  · exact Or.inl h1
  · exact Or.inr ⟨h1, lt_of_le_of_ne h1' (fun he => h2 (Prod.ext h1 he))⟩

theorem lexLt_pneg (a b : Pt) : lexLt (pneg b) (pneg a) ↔ lexLt a b := by
  unfold lexLt pneg
  dsimp only
  constructor
  · rintro (h | ⟨h, h2⟩)
    · exact Or.inl (by linarith)
    · exact Or.inr ⟨by linarith, by linarith⟩
  · rintro (h | ⟨h, h2⟩)
    · exact Or.inl (by linarith)
    · exact Or.inr ⟨by linarith, by linarith⟩

/-- Descent lemma: a strict turn at `b` propagates the `p`-above-edge
fact from edge `(b, a)` down to edge `(c, b)`. -/
theorem lemD (c b a p : Pt) (hcb : lexLt c b) (hba : lexLt b a)
    (hap : lexLe a p) (hturn : 0 < cross c b a) (hab : 0 ≤ cross b a p) :
    0 < cross c b p := by
  have hc1 : c.1 ≤ b.1 := lexLt_x _ _ hcb
  have hb1 : b.1 ≤ a.1 := lexLt_x _ _ hba
  have ha1 : a.1 ≤ p.1 := lexLe_x _ _ hap
  rcases eq_or_lt_of_le hb1 with heq | hlt
  · -- vertical edge `b → a`
    have hay : b.2 < a.2 := by
      rcases hba with h | ⟨_, h⟩
      · exact absurd h (by rw [heq]; exact lt_irrefl _)
      · exact h
    have e1 : cross c b a = (b.1 - c.1) * (a.2 - b.2) := by
      unfold cross; rw [heq]; ring
    have hbc : 0 < b.1 - c.1 := by
      rcases lt_or_le c.1 b.1 with h | h
      · linarith
      · exfalso
        have : (b.1 - c.1) * (a.2 - b.2) ≤ 0 :=
          mul_nonpos_of_nonpos_of_nonneg (by linarith) (by linarith)
        rw [e1] at hturn
        linarith
    have e2 : cross b a p = -((a.2 - b.2) * (p.1 - b.1)) := by
      unfold cross; rw [heq]; ring
    have hple : p.1 ≤ b.1 := by
      by_contra hcon
      push_neg at hcon
      have : 0 < (a.2 - b.2) * (p.1 - b.1) :=
        mul_pos (by linarith) (by linarith)
      rw [e2] at hab
      linarith
    have hp1 : p.1 = b.1 := le_antisymm hple (by linarith)
    have hpy : a.2 ≤ p.2 := by
      rcases hap with h | ⟨_, h⟩
      · exfalso; linarith
      · exact h
    have e3 : cross c b p = (b.1 - c.1) * (p.2 - b.2) := by
      unfold cross; rw [hp1]; ring
    rw [e3]
    exact mul_pos hbc (by linarith)
  · -- general case `b.1 < a.1`
    have key : (a.1 - b.1) * cross c b p =
        (a.1 - b.1) * cross c b a + (p.1 - a.1) * cross c b a +
          (b.1 - c.1) * cross b a p := by
      unfold cross; ring
    have t1 : 0 ≤ (p.1 - a.1) * cross c b a :=
      mul_nonneg (by linarith) (le_of_lt hturn)
    have t2 : 0 ≤ (b.1 - c.1) * cross b a p :=
      mul_nonneg (by linarith) hab
    have t3 : 0 < (a.1 - b.1) * cross c b a :=
      mul_pos (by linarith) hturn
    have h5 : 0 < (a.1 - b.1) * cross c b p := by linarith
    by_contra hcon
    push_neg at hcon
    have : (a.1 - b.1) * cross c b p ≤ 0 :=
      mul_nonpos_of_nonneg_of_nonpos (by linarith) hcon
    linarith

/-- Stop-case lemma: a point `q` lex-below the stop vertex `t` stays on
or left of the fresh edge `t → p`. -/
theorem lemE (s2 t p q : Pt) (h1 : lexLt s2 t) (h2 : t.1 ≤ p.1)
    (h3 : q.1 ≤ t.1) (h4 : 0 ≤ cross s2 t q) (h5 : 0 < cross s2 t p) :
    0 ≤ cross t p q := by
  have hs1 : s2.1 ≤ t.1 := lexLt_x _ _ h1
  rcases eq_or_lt_of_le hs1 with heq | hlt
  · exfalso
    have hy : s2.2 < t.2 := by
      rcases h1 with h | ⟨_, h⟩
      · exact absurd h (by rw [heq]; exact lt_irrefl _)
      · exact h
    have e : cross s2 t p = -((t.2 - s2.2) * (p.1 - s2.1)) := by
      unfold cross; rw [heq]; ring
    have : 0 ≤ (t.2 - s2.2) * (p.1 - s2.1) :=
      mul_nonneg (by linarith) (by linarith)
    rw [e] at h5
    linarith
  · have key : (t.1 - s2.1) * cross t p q =
        (p.1 - t.1) * cross s2 t q - (q.1 - t.1) * cross s2 t p := by
      unfold cross; ring
    have t4 : 0 ≤ (p.1 - t.1) * cross s2 t q :=
      mul_nonneg (by linarith) h4
    have t5 : (q.1 - t.1) * cross s2 t p ≤ 0 :=
      mul_nonpos_of_nonpos_of_nonneg (by linarith) (le_of_lt h5)
    have h6 : 0 ≤ (t.1 - s2.1) * cross t p q := by linarith
    by_contra hcon
    push_neg at hcon
    have := mul_pos (show 0 < t.1 - s2.1 by linarith)
      (show 0 < -cross t p q by linarith)
    rw [mul_neg] at this
    linarith

/-- Popped-edge lemma: a point `q` lex-between the endpoints of a popped
edge `(e, f)` lies on or left of the edge `e → p`. -/
theorem lemT (e f p q : Pt) (h1 : lexLt e f) (h2 : lexLt e q)
    (h3 : q.1 ≤ f.1) (h4 : e.1 ≤ p.1) (h5 : 0 ≤ cross e f q)
    (h6 : cross e f p ≤ 0) : 0 ≤ cross e p q := by
  have he1 : e.1 ≤ f.1 := lexLt_x _ _ h1
  have heq1 : e.1 ≤ q.1 := lexLt_x _ _ h2
  rcases eq_or_lt_of_le he1 with heq | hlt
  · have hq1 : q.1 = e.1 := le_antisymm (by linarith) heq1
    have hqy : e.2 < q.2 := by
      rcases h2 with h | ⟨_, h⟩
      · exfalso; linarith
      · exact h
    have e3 : cross e p q = (p.1 - e.1) * (q.2 - e.2) := by
      unfold cross; rw [hq1]; ring
    rw [e3]
    exact mul_nonneg (by linarith) (by linarith)
  · have key : (f.1 - e.1) * cross e p q =
        (p.1 - e.1) * cross e f q - (q.1 - e.1) * cross e f p := by
      unfold cross; ring
    have t4 : 0 ≤ (p.1 - e.1) * cross e f q :=
      mul_nonneg (by linarith) h5
    have t5 : (q.1 - e.1) * cross e f p ≤ 0 :=
      mul_nonpos_of_nonneg_of_nonpos (by linarith) h6
    have h7 : 0 ≤ (f.1 - e.1) * cross e p q := by linarith
    by_contra hcon
    push_neg at hcon
    have := mul_pos (show 0 < f.1 - e.1 by linarith)
      (show 0 < -cross e p q by linarith)
    rw [mul_neg] at this
    linarith

/-- Four-point cocycle identity, packaged for the descent over popped
edges. -/
theorem lemS (b a p q : Pt) (h1 : 0 ≤ cross a p q) (h2 : 0 ≤ cross b a q)
    (h3 : cross b a p ≤ 0) : 0 ≤ cross b p q := by
  have key : cross b p q = cross a p q + cross b a q - cross b a p := by
    unfold cross; ring
  linarith

/-- Three points on the line through two distinct points are mutually
collinear. -/
theorem cross_of_collinear (h l a b c : Pt) (hne : h ≠ l)
    (ha : cross h l a = 0) (hb : cross h l b = 0) (hc : cross h l c = 0) :
    cross a b c = 0 := by
  have key1 : (l.1 - h.1) * cross a b c =
      (b.1 - a.1) * (cross h l c - cross h l a) -
        (c.1 - a.1) * (cross h l b - cross h l a) := by
    unfold cross; ring
  have key2 : (l.2 - h.2) * cross a b c =
      (b.2 - a.2) * (cross h l c - cross h l a) -
        (c.2 - a.2) * (cross h l b - cross h l a) := by
    unfold cross; ring
  rw [ha, hb, hc] at key1 key2
  simp at key1 key2
  have hd : l.1 - h.1 ≠ 0 ∨ l.2 - h.2 ≠ 0 := by
    by_contra hcon
    push_neg at hcon
    exact hne (Prod.ext (by linarith [hcon.1]) (by linarith [hcon.2])).symm
  rcases hd with hd | hd
  · rcases key1 with h0 | h0
    · exact absurd h0 hd
    · exact h0
  · rcases key2 with h0 | h0
    · exact absurd h0 hd
    · exact h0

theorem popWhile_ne_nil (p : Pt) : ∀ r : List Pt, r ≠ [] → popWhile p r ≠ []
  | [], h => absurd rfl h
  | [a], _ => by simp [popWhile]
  | a :: b :: t, _ => by
    simp only [popWhile]
    by_cases h : cross b a p ≤ 0
    · rw [if_pos h]
      exact popWhile_ne_nil p (b :: t) (by simp)
    · rw [if_neg h]
      simp

theorem popWhile_mem (p : Pt) : ∀ r : List Pt, ∀ x ∈ popWhile p r, x ∈ r
  | [], x, hx => by simp [popWhile] at hx
  | [a], x, hx => by simpa [popWhile] using hx
  | a :: b :: t, x, hx => by
    simp only [popWhile] at hx
    by_cases h : cross b a p ≤ 0
    · rw [if_pos h] at hx
      exact List.mem_cons_of_mem a (popWhile_mem p (b :: t) x hx)
    · rw [if_neg h] at hx
      exact hx

theorem popWhile_getLast? (p : Pt) :
    ∀ r : List Pt, r ≠ [] → (popWhile p r).getLast? = r.getLast?
  | [], h => absurd rfl h
  | [a], _ => by simp [popWhile]
  | a :: b :: t, _ => by
    simp only [popWhile]
    by_cases h : cross b a p ≤ 0
    · rw [if_pos h, popWhile_getLast? p (b :: t) (by simp)]
      simp [List.getLast?_cons_cons]
    · rw [if_neg h]

theorem decLex_tail (a : Pt) (r : List Pt) (h : decLex (a :: r)) : decLex r := by
  match r with
  | [] => trivial
  | b :: t => exact h.2

theorem turnsRev_tail (a : Pt) (r : List Pt) (h : turnsRev (a :: r)) :
    turnsRev r := by
  match r with
  | [] => trivial
  | [b] => trivial
  | b :: c :: t => exact h.2

theorem edgesAbove_tail (a : Pt) (r : List Pt) (q : Pt)
    (h : edgesAbove (a :: r) q) : edgesAbove r q := by
  match r with
  | [] => trivial
  | b :: t => exact h.2

theorem popWhile_decLex (p : Pt) :
    ∀ r : List Pt, decLex r → decLex (popWhile p r)
  | [], h => h
  | [a], h => h
  | a :: b :: t, h => by
    simp only [popWhile]
    by_cases hc : cross b a p ≤ 0
    · rw [if_pos hc]
      exact popWhile_decLex p (b :: t) h.2
    · rw [if_neg hc]
      exact h

theorem popWhile_turns (p : Pt) :
    ∀ r : List Pt, turnsRev r → turnsRev (popWhile p r)
  | [], h => h
  | [a], h => h
  | a :: b :: t, h => by
    simp only [popWhile]
    by_cases hc : cross b a p ≤ 0
    · rw [if_pos hc]
      exact popWhile_turns p (b :: t) (turnsRev_tail _ _ h)
    · rw [if_neg hc]
      exact h

theorem popWhile_edgesAbove (p q : Pt) :
    ∀ r : List Pt, edgesAbove r q → edgesAbove (popWhile p r) q
  | [], h => h
  | [a], h => h
  | a :: b :: t, h => by
    simp only [popWhile]
    by_cases hc : cross b a p ≤ 0
    · rw [if_pos hc]
      exact popWhile_edgesAbove p q (b :: t) h.2
    · rw [if_neg hc]
      exact h

theorem popWhile_stop (p : Pt) :
    ∀ r : List Pt, (popWhile p r).length ≤ 1 ∨
      ∃ x y t, popWhile p r = x :: y :: t ∧ 0 < cross y x p
  | [] => by simp [popWhile]
  | [a] => by simp [popWhile]
  | a :: b :: t => by
    simp only [popWhile]
    by_cases hc : cross b a p ≤ 0
    · rw [if_pos hc]
      exact popWhile_stop p (b :: t)
    · rw [if_neg hc]
      exact Or.inr ⟨a, b, t, rfl, lt_of_not_le hc⟩

theorem getLastD_cons_cons (a b : Pt) (t : List Pt) (d : Pt) :
    (a :: b :: t).getLastD d = (b :: t).getLastD d := by
  rw [List.getLastD_eq_getLast?, List.getLastD_eq_getLast?,
    List.getLast?_cons_cons]

/-- The pushed point `p` lies on or left of every edge that survives the
pop loop (by descent from the stop edge). -/
theorem edgesAbove_of_stop (p : Pt) :
    ∀ r : List Pt, decLex r → turnsRev r → (∀ x ∈ r, lexLt x p) →
      (∀ x y t, r = x :: y :: t → 0 ≤ cross y x p) → edgesAbove r p
  | [], _, _, _, _ => trivial
  | [_], _, _, _, _ => trivial
  | a :: b :: t, hdec, hturn, hlt, hstop => by
    refine ⟨hstop a b t rfl, ?_⟩
    apply edgesAbove_of_stop p (b :: t) hdec.2 (turnsRev_tail _ _ hturn)
      (fun x hx => hlt x (List.mem_cons_of_mem _ hx))
    intro x y t2 heq
    cases t with
    | nil => simp at heq
    | cons c t3 =>
      injection heq with h1 h2
      injection h2 with h3 h4
      subst h1 h3 h4
      exact le_of_lt (lemD c b a p hdec.2.1 hdec.1
        (lexLe_of_lt a p (hlt a (by simp))) hturn.1 (hstop a b (c :: t3) rfl))

/-- Descent of a half-plane fact along the popped chain. -/
theorem popWhile_descent (p q : Pt) :
    ∀ r : List Pt, edgesAbove r q → 0 ≤ cross (r.headD pd) p q →
      0 ≤ cross ((popWhile p r).headD pd) p q
  | [], _, h => h
  | [_], _, h => h
  | a :: b :: t, hab, h => by
    simp only [List.headD_cons] at h
    simp only [popWhile]
    by_cases hc : cross b a p ≤ 0
    · rw [if_pos hc]
      apply popWhile_descent p q (b :: t) hab.2
      simp only [List.headD_cons]
      exact lemS b a p q h hab.1 hc
    · rw [if_neg hc]
      simpa using h

/-- Every previously processed point lies on or left of the new edge
from the post-pop top to the pushed point `p`. -/
theorem popWhile_newEdge (p q : Pt) :
    ∀ r : List Pt, r ≠ [] → decLex r → edgesAbove r q →
      (∀ x ∈ r, lexLt x p) → lexLe q (r.headD pd) →
      lexLe (r.getLastD pd) q →
      0 ≤ cross ((popWhile p r).headD pd) p q
  | [], h, _, _, _, _, _ => absurd rfl h
  | [a], _, _, _, _, htop, hbot => by
    have hqa : q = a :=
      lexLe_antisymm q a (by simpa using htop) (by simpa using hbot)
    simp only [popWhile, List.headD_cons]
    rw [hqa]
    exact le_of_eq (cross_outer a p).symm
  | a :: b :: t, _, hdec, hab, hlt, htop, hbot => by
    simp only [List.headD_cons] at htop
    rw [getLastD_cons_cons] at hbot
    simp only [popWhile]
    by_cases hc : cross b a p ≤ 0
    · rw [if_pos hc]
      by_cases hq : lexLe q b
      · exact popWhile_newEdge p q (b :: t) (by simp) hdec.2 hab.2
          (fun x hx => hlt x (List.mem_cons_of_mem _ hx))
          (by simpa using hq) hbot
      · have hbq : lexLt b q := lexLt_of_not_le q b hq
        have hT : 0 ≤ cross b p q :=
          lemT b a p q hdec.1 hbq (lexLe_x q a htop)
            (lexLt_x b p (hlt b (by simp))) hab.1 hc
        apply popWhile_descent p q (b :: t) hab.2
        simpa using hT
    · rw [if_neg hc]
      simp only [List.headD_cons]
      exact lemE b a p q hdec.1 (lexLt_x a p (hlt a (by simp)))
        (lexLe_x q a htop) hab.1 (lt_of_not_le hc)

/-- Invariant of one chain-building loop: `r` is the chain top-first,
`pre` the processed prefix of the (lex-sorted) input. -/
structure ChainInv (r pre : List Pt) : Prop where
  nemp : pre ≠ [] → r ≠ []
  sub : ∀ x ∈ r, x ∈ pre
  top : r.head? = pre.getLast?
  bot : r.getLast? = pre.head?
  dec : decLex r
  turns : turnsRev r
  above : ∀ q ∈ pre, edgesAbove r q
  topB : ∀ q ∈ pre, lexLe q (r.headD pd)
  botB : ∀ q ∈ pre, lexLe (r.getLastD pd) q

theorem getLastD_mem (r : List Pt) (h : r ≠ []) : r.getLastD pd ∈ r := by
  rw [List.getLastD_eq_getLast?, List.getLast?_eq_getLast_of_ne_nil h]
  simp only [Option.getD_some]
  exact List.getLast_mem h

theorem chainInv_step (r pre : List Pt) (p : Pt) (hinv : ChainInv r pre)
    (hgt : ∀ x ∈ pre, lexLt x p) :
    ChainInv (p :: popWhile p r) (pre ++ [p]) := by
  cases r with
  | nil =>
    have hpre : pre = [] := by
      cases hp : pre with
      | nil => rfl
      | cons x t => exact absurd rfl (hinv.nemp (by rw [hp]; simp))
    subst hpre
    exact ⟨by simp, by simp [popWhile], by simp [popWhile], by simp [popWhile],
      trivial, trivial,
      by intro q hq; simp at hq; subst hq; simp [popWhile, edgesAbove],
      by intro q hq; simp at hq; subst hq; simp [popWhile, lexLe_refl],
      by intro q hq; simp at hq; subst hq; simp [popWhile, lexLe_refl]⟩
  | cons a rt =>
    have hrne : (a :: rt) ≠ [] := by simp
    have hpne : pre ≠ [] := by
      intro h
      exact absurd (hinv.sub a (by simp)) (by rw [h]; simp)
    have hne' : popWhile p (a :: rt) ≠ [] := popWhile_ne_nil p _ hrne
    have hlast' : (popWhile p (a :: rt)).getLast? = (a :: rt).getLast? :=
      popWhile_getLast? p _ hrne
    have hmem' : ∀ x ∈ popWhile p (a :: rt), x ∈ pre :=
      fun x hx => hinv.sub x (popWhile_mem p _ x hx)
    have hltp : ∀ x ∈ popWhile p (a :: rt), lexLt x p :=
      fun x hx => hgt x (hmem' x hx)
    refine ⟨by simp, ?_, ?_, ?_, ?_, ?_, ?_, ?_, ?_⟩
    · intro x hx
      rcases List.mem_cons.mp hx with rfl | hx
      · exact List.mem_append_right _ (by simp)
      · exact List.mem_append_left _ (hmem' x hx)
    · simp [List.getLast?_concat]
    · cases hr' : popWhile p (a :: rt) with
      | nil => exact absurd hr' hne'
      | cons y t' =>
        rw [List.getLast?_cons_cons, ← hr', hlast', hinv.bot]
        cases hp : pre with
        | nil => exact absurd hp hpne
        | cons x t => simp
    · cases hr' : popWhile p (a :: rt) with
      | nil => trivial
      | cons y t' =>
        exact ⟨hltp y (by rw [hr']; simp),
          by rw [← hr']; exact popWhile_decLex p _ hinv.dec⟩
    · cases hr' : popWhile p (a :: rt) with
      | nil => trivial
      | cons y t' =>
        cases t' with
        | nil => trivial
        | cons z t2 =>
          refine ⟨?_, by rw [← hr']; exact popWhile_turns p _ hinv.turns⟩
          rcases popWhile_stop p (a :: rt) with hlen | ⟨x2, y2, t3, heq, hcr⟩
          · rw [hr'] at hlen; simp at hlen
          · rw [hr'] at heq
            injection heq with e1 e2
            injection e2 with e3 e4
            subst e1 e3
            exact hcr
    · intro q hq
      rcases List.mem_append.mp hq with hq | hq
      · cases hr' : popWhile p (a :: rt) with
        | nil => exact absurd hr' hne'
        | cons y t' =>
          refine ⟨?_, by rw [← hr']; exact popWhile_edgesAbove p q _ (hinv.above q hq)⟩
          have := popWhile_newEdge p q (a :: rt) hrne hinv.dec
            (hinv.above q hq) (fun x hx => hgt x (hinv.sub x hx))
            (hinv.topB q hq) (hinv.botB q hq)
          rw [hr'] at this
          simpa using this
      · simp at hq
        rw [hq]
        cases hr' : popWhile p (a :: rt) with
        | nil => exact absurd hr' hne'
        | cons y t' =>
          refine ⟨le_of_eq (cross_right_self y p).symm, ?_⟩
          rw [← hr']
          apply edgesAbove_of_stop p _ (popWhile_decLex p _ hinv.dec)
            (popWhile_turns p _ hinv.turns) hltp
          intro x2 y2 t3 heq
          rcases popWhile_stop p (a :: rt) with hlen | ⟨x3, y3, t4, heq2, hcr⟩
          · rw [heq] at hlen; simp at hlen
          · rw [heq] at heq2
            injection heq2 with e1 e2
            injection e2 with e3 e4
            subst e1 e3
            exact le_of_lt hcr
    · intro q hq
      simp only [List.headD_cons]
      rcases List.mem_append.mp hq with hq | hq
      · exact lexLe_of_lt q p (hgt q hq)
      · simp at hq
        subst hq
        exact lexLe_refl q
    · intro q hq
      have hgl : (p :: popWhile p (a :: rt)).getLastD pd =
          (a :: rt).getLastD pd := by
        cases hr' : popWhile p (a :: rt) with
        | nil => exact absurd hr' hne'
        | cons y t' =>
          rw [getLastD_cons_cons, List.getLastD_eq_getLast?, ← hr', hlast',
            List.getLastD_eq_getLast?]
      rw [hgl]
      rcases List.mem_append.mp hq with hq | hq
      · exact hinv.botB q hq
      · simp at hq
        subst hq
        exact lexLe_of_lt _ q (hgt _ (hinv.sub _ (getLastD_mem _ hrne)))

theorem chainInv_nil : ChainInv [] [] :=
  ⟨fun h => absurd rfl h, by simp, by simp, by simp, trivial, trivial,
    by simp, by simp, by simp⟩

theorem chainInv_fold_aux :
    ∀ (rest pre r : List Pt), ChainInv r pre →
      (pre ++ rest).Pairwise lexLt →
      ChainInv (rest.foldl (fun st q => q :: popWhile q st) r) (pre ++ rest)
  | [], pre, r, hinv, _ => by simpa using hinv
  | p :: rest, pre, r, hinv, hpw => by
    have hgt : ∀ x ∈ pre, lexLt x p := by
      have h2 := (List.pairwise_append.mp hpw).2.2
      exact fun x hx => h2 x hx p (by simp)
    have hstep := chainInv_step r pre p hinv hgt
    have hrec := chainInv_fold_aux rest (pre ++ [p]) (p :: popWhile p r) hstep
      (by simpa [List.append_assoc] using hpw)
    simpa [List.append_assoc] using hrec

theorem chainRev_inv (l : List Pt) (hpw : l.Pairwise lexLt) :
    ChainInv (chainRev l) l := by
  have h := chainInv_fold_aux l [] [] chainInv_nil (by simpa using hpw)
  simpa [chainRev] using h

theorem edgesAbove_getD (q : Pt) :
    ∀ r : List Pt, edgesAbove r q → ∀ i, i + 1 < r.length →
      0 ≤ cross (r.getD (i + 1) pd) (r.getD i pd) q
  | [], _, i, hi => by simp at hi
  | [a], _, i, hi => by simp at hi
  | a :: b :: t, h, i, hi => by
    cases i with
    | zero => simpa using h.1
    | succ j =>
      have := edgesAbove_getD q (b :: t) h.2 j (by simpa using hi)
      simpa using this

theorem turnsRev_getD :
    ∀ r : List Pt, turnsRev r → ∀ i, i + 2 < r.length →
      0 < cross (r.getD (i + 2) pd) (r.getD (i + 1) pd) (r.getD i pd)
  | [], _, i, hi => by simp at hi
  | [a], _, i, hi => by simp at hi
  | [a, b], _, i, hi => by simp at hi
  | a :: b :: c :: t, h, i, hi => by
    cases i with
    | zero => simpa using h.1
    | succ j =>
      have := turnsRev_getD (b :: c :: t) h.2 j (by simpa using hi)
      simpa using this

theorem getD_reverse (l : List Pt) (i : Nat) (hi : i < l.length) :
    l.reverse.getD i pd = l.getD (l.length - 1 - i) pd := by
  rw [List.getD_eq_getElem?_getD, List.getD_eq_getElem?_getD,
    List.getElem?_reverse hi]

theorem edgesAbove_to_EdgesOK (r : List Pt) (q : Pt) (h : edgesAbove r q) :
    EdgesOK r.reverse q := by
  intro i hi
  rw [List.length_reverse] at hi
  rw [getD_reverse r i (by omega), getD_reverse r (i + 1) (by omega)]
  have h2 := edgesAbove_getD q r h (r.length - 2 - i) (by omega)
  have e1 : r.length - 1 - i = r.length - 2 - i + 1 := by omega
  have e2 : r.length - 1 - (i + 1) = r.length - 2 - i := by omega
  rw [e1, e2]
  exact h2

theorem turnsRev_to_TurnsOK (r : List Pt) (h : turnsRev r) :
    TurnsOK r.reverse := by
  intro i hi
  rw [List.length_reverse] at hi
  rw [getD_reverse r i (by omega), getD_reverse r (i + 1) (by omega),
    getD_reverse r (i + 2) (by omega)]
  have h2 := turnsRev_getD r h (r.length - 3 - i) (by omega)
  have e1 : r.length - 1 - i = r.length - 3 - i + 2 := by omega
  have e2 : r.length - 1 - (i + 1) = r.length - 3 - i + 1 := by omega
  have e3 : r.length - 1 - (i + 2) = r.length - 3 - i := by omega
  rw [e1, e2, e3]
  exact h2

/-- Chain-order summary of a finished chain over input `l`. -/
structure ChainFacts (l C : List Pt) : Prop where
  sub : ∀ v ∈ C, v ∈ l
  headEq : C.head? = l.head?
  lastEq : C.getLast? = l.getLast?
  edges : ∀ q ∈ l, EdgesOK C q
  turns : TurnsOK C
  nemp : C ≠ []

theorem buildChain_facts (l : List Pt) (hpw : l.Pairwise lexLt)
    (hne : l ≠ []) : ChainFacts l (buildChain l) := by
  have hinv := chainRev_inv l hpw
  refine ⟨?_, ?_, ?_, ?_, ?_, ?_⟩
  · intro v hv
    exact hinv.sub v (List.mem_reverse.mp hv)
  · rw [buildChain, List.head?_reverse, hinv.bot]
  · rw [buildChain, List.getLast?_reverse, hinv.top]
  · intro q hq
    exact edgesAbove_to_EdgesOK _ q (hinv.above q hq)
  · exact turnsRev_to_TurnsOK _ hinv.turns
  · rw [buildChain]
    simpa using hinv.nemp hne

theorem getD_map_pneg (l : List Pt) (i : Nat) :
    (l.map pneg).getD i pd = pneg (l.getD i pd) := by
  rw [List.getD_eq_getElem?_getD, List.getD_eq_getElem?_getD,
    List.getElem?_map]
  cases l[i]? with
  | none => simp [pneg, pd]
  | some x => simp

theorem chainFacts_pneg (l C : List Pt) (h : ChainFacts l C) :
    ChainFacts (l.map pneg) (C.map pneg) := by
  refine ⟨?_, ?_, ?_, ?_, ?_, ?_⟩
  · intro v hv
    rcases List.mem_map.mp hv with ⟨w, hw, rfl⟩
    exact List.mem_map_of_mem _ (h.sub w hw)
  · rw [List.head?_map, List.head?_map, h.headEq]
  · rw [List.getLast?_map, List.getLast?_map, h.lastEq]
  · intro q hq i hi
    rcases List.mem_map.mp hq with ⟨w, hw, rfl⟩
    rw [List.length_map] at hi
    rw [getD_map_pneg, getD_map_pneg, cross_pneg]
    exact h.edges w hw i hi
  · intro i hi
    rw [List.length_map] at hi
    rw [getD_map_pneg, getD_map_pneg, getD_map_pneg, cross_pneg]
    exact h.turns i hi
  · simpa using h.nemp

theorem popWhile_map_pneg (p : Pt) :
    ∀ r : List Pt, popWhile (pneg p) (r.map pneg) = (popWhile p r).map pneg
  | [] => by simp [popWhile]
  | [a] => by simp [popWhile]
  | a :: b :: t => by
    simp only [List.map_cons, popWhile, cross_pneg]
    by_cases hc : cross b a p ≤ 0
    · rw [if_pos hc, if_pos hc]
      have := popWhile_map_pneg p (b :: t)
      simpa using this
    · rw [if_neg hc, if_neg hc]
      simp

theorem chainFold_map_pneg :
    ∀ (l init : List Pt),
      (l.map pneg).foldl (fun st q => q :: popWhile q st) (init.map pneg) =
        (l.foldl (fun st q => q :: popWhile q st) init).map pneg
  | [], _ => by simp
  | q :: l, init => by
    simp only [List.map_cons, List.foldl_cons]
    rw [popWhile_map_pneg q init]
    have := chainFold_map_pneg l (q :: popWhile q init)
    simpa using this

theorem buildChain_map_pneg (l : List Pt) :
    buildChain (l.map pneg) = (buildChain l).map pneg := by
  unfold buildChain chainRev
  have h := chainFold_map_pneg l []
  simp only [List.map_nil] at h
  rw [h, List.map_reverse]

theorem buildChain_reverse_facts (s : List Pt) (hpw : s.Pairwise lexLt)
    (hne : s ≠ []) : ChainFacts s.reverse (buildChain s.reverse) := by
  have hrev : s.reverse.Pairwise (fun a b => lexLt b a) :=
    List.pairwise_reverse.mpr hpw
  have h1 : (s.reverse.map pneg).Pairwise lexLt := by
    refine List.Pairwise.map pneg ?_ hrev
    exact fun a b h => (lexLt_pneg b a).mpr h
  have hfacts := chainFacts_pneg _ _
    (buildChain_facts (s.reverse.map pneg) h1 (by simp [hne]))
  rw [← buildChain_map_pneg] at hfacts
  have hmm : (s.reverse.map pneg).map pneg = s.reverse := by
    simp [List.map_map, Function.comp_def, pneg_pneg]
  rw [hmm] at hfacts
  exact hfacts

theorem head?_getD (l : List Pt) (h : l ≠ []) :
    l.head? = some (l.getD 0 pd) := by
  cases l with
  | nil => exact absurd rfl h
  | cons a t => simp

theorem getLast?_getD (l : List Pt) (h : l ≠ []) :
    l.getLast? = some (l.getD (l.length - 1) pd) := by
  have hlen : 0 < l.length := List.length_pos.mpr h
  rw [List.getLast?_eq_getElem?, List.getD_eq_getElem _ _ (by omega)]
  exact List.getElem?_eq_getElem (by omega)

theorem pairwise_lexLt_getD (s : List Pt) (hpw : s.Pairwise lexLt)
    (i j : Nat) (hij : i < j) (hj : j < s.length) :
    lexLt (s.getD i pd) (s.getD j pd) := by
  rw [List.getD_eq_getElem _ _ (by omega), List.getD_eq_getElem _ _ hj]
  exact List.pairwise_iff_getElem.mp hpw i j (by omega) hj hij

theorem length_ge_two (C : List Pt) (hne : C ≠ [])
    (h : C.getD 0 pd ≠ C.getD (C.length - 1) pd) : 2 ≤ C.length := by
  by_contra h2
  push_neg at h2
  have h1 : 0 < C.length := List.length_pos.mpr hne
  have : C.length = 1 := by omega
  exact h (by rw [this])

theorem getD_dropLast (l : List Pt) (i : Nat) (hi : i < l.dropLast.length) :
    l.dropLast.getD i pd = l.getD i pd := by
  have hlen : l.dropLast.length = l.length - 1 := List.length_dropLast l
  rw [List.getD_eq_getElem _ _ hi, List.getElem_dropLast,
    List.getD_eq_getElem _ _ (by omega)]

/-- Every cyclically consecutive pair of the hull list is a consecutive
pair of one of the two chains. -/
theorem hull_pair (L U : List Pt) (hL2 : 2 ≤ L.length) (hU2 : 2 ≤ U.length)
    (hj1 : L.getD (L.length - 1) pd = U.getD 0 pd)
    (hj2 : U.getD (U.length - 1) pd = L.getD 0 pd)
    (j : Nat) (hj : j < (L.dropLast ++ U.dropLast).length) :
    ∃ C k, (C = L ∨ C = U) ∧ k + 1 < C.length ∧
      (L.dropLast ++ U.dropLast).getD j pd = C.getD k pd ∧
      (L.dropLast ++ U.dropLast).getD
          ((j + 1) % (L.dropLast ++ U.dropLast).length) pd =
        C.getD (k + 1) pd := by
  have hlA : L.dropLast.length = L.length - 1 := List.length_dropLast L
  have hlB : U.dropLast.length = U.length - 1 := List.length_dropLast U
  have hm : (L.dropLast ++ U.dropLast).length =
      (L.length - 1) + (U.length - 1) := by
    rw [List.length_append, hlA, hlB]
  rcases Nat.lt_or_ge (j + 1) (L.length - 1) with hc1 | hc1
  · -- both inside the lower part
    refine ⟨L, j, Or.inl rfl, by omega, ?_, ?_⟩
    · rw [List.getD_append _ _ _ _ (by omega), getD_dropLast _ _ (by omega)]
    · rw [Nat.mod_eq_of_lt (by omega),
        List.getD_append _ _ _ _ (by omega), getD_dropLast _ _ (by omega)]
  rcases Nat.lt_or_ge j (L.length - 1) with hc2 | hc2
  · -- junction: last edge of the lower chain
    have hj1' : j + 1 = L.length - 1 := by omega
    refine ⟨L, j, Or.inl rfl, by omega, ?_, ?_⟩
    · rw [List.getD_append _ _ _ _ (by omega), getD_dropLast _ _ (by omega)]
    · rw [Nat.mod_eq_of_lt (by omega),
        List.getD_append_right _ _ _ _ (by omega), hlA, hj1']
      have hz : L.length - 1 - (L.length - 1) = 0 := by omega
      rw [hz, getD_dropLast _ _ (by omega), ← hj1]
  rcases Nat.lt_or_ge (j + 1) ((L.length - 1) + (U.length - 1)) with hc3 | hc3
  · -- both inside the upper part
    refine ⟨U, j - (L.length - 1), Or.inr rfl, by omega, ?_, ?_⟩
    · rw [List.getD_append_right _ _ _ _ (by omega), hlA,
        getD_dropLast _ _ (by omega)]
    · rw [Nat.mod_eq_of_lt (by omega),
        List.getD_append_right _ _ _ _ (by omega), hlA,
        getD_dropLast _ _ (by omega)]
      congr 1
      omega
  · -- wrap-around: last edge of the upper chain
    have hj3 : j = (L.length - 1) + (U.length - 1) - 1 := by omega
    refine ⟨U, U.length - 2, Or.inr rfl, by omega, ?_, ?_⟩
    · rw [List.getD_append_right _ _ _ _ (by omega), hlA,
        getD_dropLast _ _ (by omega)]
      congr 1
      omega
    · have hmod : (j + 1) % (L.dropLast ++ U.dropLast).length = 0 := by
        have he : j + 1 = L.length - 1 + (U.length - 1) := by omega
        rw [hm, he, Nat.mod_self]
      rw [hmod, List.getD_append _ _ _ _ (by omega),
        getD_dropLast _ _ (by omega), ← hj2]
      congr 1
      omega

theorem hull_assembly (s L U : List Pt) (hslen : 3 ≤ s.length)
    (hpw : s.Pairwise lexLt)
    (hLf : ChainFacts s L) (hUf : ChainFacts s.reverse U)
    (hnc : ∃ a ∈ s, ∃ b ∈ s, ∃ c ∈ s, cross a b c ≠ 0) :
    (∀ v ∈ L.dropLast ++ U.dropLast, v ∈ s) ∧
    3 ≤ (L.dropLast ++ U.dropLast).length ∧
    (∀ i : Nat, 0 ≤ cross (cyc (L.dropLast ++ U.dropLast) i)
      (cyc (L.dropLast ++ U.dropLast) (i + 1))
      (cyc (L.dropLast ++ U.dropLast) (i + 2))) ∧
    (∃ i : Nat, 0 < cross (cyc (L.dropLast ++ U.dropLast) i)
      (cyc (L.dropLast ++ U.dropLast) (i + 1))
      (cyc (L.dropLast ++ U.dropLast) (i + 2))) ∧
    (∀ q ∈ s, ∀ i : Nat, 0 ≤ cross (cyc (L.dropLast ++ U.dropLast) i)
      (cyc (L.dropLast ++ U.dropLast) (i + 1)) q) := by
  have hsne : s ≠ [] := by
    intro h
    rw [h] at hslen
    simp at hslen
  have hlA : L.dropLast.length = L.length - 1 := List.length_dropLast L
  have hlB : U.dropLast.length = U.length - 1 := List.length_dropLast U
  have hmlen : (L.dropLast ++ U.dropLast).length =
      (L.length - 1) + (U.length - 1) := by
    rw [List.length_append, hlA, hlB]
  have hLh : L.getD 0 pd = s.getD 0 pd := by
    have h1 := hLf.headEq
    rw [head?_getD L hLf.nemp, head?_getD s hsne] at h1
    exact Option.some.inj h1
  have hLl : L.getD (L.length - 1) pd = s.getD (s.length - 1) pd := by
    have h1 := hLf.lastEq
    rw [getLast?_getD L hLf.nemp, getLast?_getD s hsne] at h1
    exact Option.some.inj h1
  have hUh : U.getD 0 pd = s.getD (s.length - 1) pd := by
    have h1 := hUf.headEq
    rw [head?_getD U hUf.nemp, List.head?_reverse, getLast?_getD s hsne] at h1
    exact Option.some.inj h1
  have hUl : U.getD (U.length - 1) pd = s.getD 0 pd := by
    have h1 := hUf.lastEq
    rw [getLast?_getD U hUf.nemp, List.getLast?_reverse, head?_getD s hsne] at h1
    exact Option.some.inj h1
  have hne01 : s.getD 0 pd ≠ s.getD (s.length - 1) pd :=
    lexLt_ne _ _ (pairwise_lexLt_getD s hpw 0 (s.length - 1) (by omega) (by omega))
  have hL2 : 2 ≤ L.length :=
    length_ge_two L hLf.nemp (by rw [hLh, hLl]; exact hne01)
  have hU2 : 2 ≤ U.length :=
    length_ge_two U hUf.nemp (by rw [hUh, hUl]; exact hne01.symm)
  have hj1 : L.getD (L.length - 1) pd = U.getD 0 pd := by rw [hLl, hUh]
  have hj2 : U.getD (U.length - 1) pd = L.getD 0 pd := by rw [hUl, hLh]
  have h3chain : 3 ≤ L.length ∨ 3 ≤ U.length := by
    by_contra hcon
    push_neg at hcon
    have hL2' : L.length = 2 := by omega
    have hU2' : U.length = 2 := by omega
    obtain ⟨a, ha, b, hb, c, hc, hab⟩ := hnc
    have hcol : ∀ q ∈ s,
        cross (s.getD 0 pd) (s.getD (s.length - 1) pd) q = 0 := by
      intro q hq
      have e1 := hLf.edges q hq 0 (by omega)
      have e2 := hUf.edges q (List.mem_reverse.mpr hq) 0 (by omega)
      have hL1 : L.getD 1 pd = s.getD (s.length - 1) pd := by
        have h1 : L.length - 1 = 1 := by omega
        rw [← hLl, h1]
      have hU1 : U.getD 1 pd = s.getD 0 pd := by
        have h1 : U.length - 1 = 1 := by omega
        rw [← hUl, h1]
      rw [hLh, hL1] at e1
      rw [hUh, hU1] at e2
      have hf := cross_flip (s.getD 0 pd) (s.getD (s.length - 1) pd) q
      rw [hf] at e2
      linarith
    exact hab (cross_of_collinear _ _ a b c hne01 (hcol a ha) (hcol b hb)
      (hcol c hc))
  have hm3 : 3 ≤ (L.dropLast ++ U.dropLast).length := by
    rw [hmlen]
    rcases h3chain with h | h <;> omega
  have hsub : ∀ v ∈ L.dropLast ++ U.dropLast, v ∈ s := by
    intro v hv
    rcases List.mem_append.mp hv with hv | hv
    · exact hLf.sub v ((List.dropLast_sublist L).subset hv)
    · exact List.mem_reverse.mp (hUf.sub v ((List.dropLast_sublist U).subset hv))
  have hpairs : ∀ q ∈ s, ∀ i : Nat,
      0 ≤ cross (cyc (L.dropLast ++ U.dropLast) i)
        (cyc (L.dropLast ++ U.dropLast) (i + 1)) q := by
    intro q hq i
    have hmpos : 0 < (L.dropLast ++ U.dropLast).length := by omega
    obtain ⟨C, k, hC, hk, he1, he2⟩ :=
      hull_pair L U hL2 hU2 hj1 hj2
        (i % (L.dropLast ++ U.dropLast).length) (Nat.mod_lt _ hmpos)
    unfold cyc
    have hstep : (i + 1) % (L.dropLast ++ U.dropLast).length =
        (i % (L.dropLast ++ U.dropLast).length + 1) %
          (L.dropLast ++ U.dropLast).length :=
      (Nat.mod_add_mod i (L.dropLast ++ U.dropLast).length 1).symm
    rw [hstep, he1, he2]
    rcases hC with rfl | rfl
    · exact hLf.edges q hq k hk
    · exact hUf.edges q (List.mem_reverse.mpr hq) k hk
  have htriples : ∀ i : Nat,
      0 ≤ cross (cyc (L.dropLast ++ U.dropLast) i)
        (cyc (L.dropLast ++ U.dropLast) (i + 1))
        (cyc (L.dropLast ++ U.dropLast) (i + 2)) := by
    intro i
    have hmem : cyc (L.dropLast ++ U.dropLast) (i + 2) ∈ s := by
      apply hsub
      unfold cyc
      have hlt : (i + 2) % (L.dropLast ++ U.dropLast).length <
          (L.dropLast ++ U.dropLast).length := Nat.mod_lt _ (by omega)
      rw [List.getD_eq_getElem _ _ hlt]
      exact List.getElem_mem _
    exact hpairs _ hmem i
  have hstrict : ∃ i : Nat,
      0 < cross (cyc (L.dropLast ++ U.dropLast) i)
        (cyc (L.dropLast ++ U.dropLast) (i + 1))
        (cyc (L.dropLast ++ U.dropLast) (i + 2)) := by
    rcases h3chain with h3L | h3U
    · refine ⟨0, ?_⟩
      have hc0 : cyc (L.dropLast ++ U.dropLast) 0 = L.getD 0 pd := by
        unfold cyc
        rw [Nat.zero_mod, List.getD_append _ _ _ _ (by omega),
          getD_dropLast _ _ (by omega)]
      have hc1 : cyc (L.dropLast ++ U.dropLast) 1 = L.getD 1 pd := by
        unfold cyc
        rw [Nat.mod_eq_of_lt (by omega), List.getD_append _ _ _ _ (by omega),
          getD_dropLast _ _ (by omega)]
      have hc2 : cyc (L.dropLast ++ U.dropLast) 2 = L.getD 2 pd := by
        unfold cyc
        rw [Nat.mod_eq_of_lt (by omega)]
        rcases Nat.lt_or_ge 2 L.dropLast.length with h | h
        · rw [List.getD_append _ _ _ _ h, getD_dropLast _ _ h]
        · have hmA : L.dropLast.length = 2 := by omega
          rw [List.getD_append_right _ _ _ _ (by omega), hmA]
          have h0 : (2 : Nat) - 2 = 0 := rfl
          rw [h0, getD_dropLast _ _ (by omega), hUh, ← hLl]
          congr 1
          omega
      rw [hc0, hc1, hc2]
      exact hLf.turns 0 (by omega)
    · refine ⟨L.length - 1, ?_⟩
      have hc0 : cyc (L.dropLast ++ U.dropLast) (L.length - 1) =
          U.getD 0 pd := by
        unfold cyc
        rw [Nat.mod_eq_of_lt (by omega),
          List.getD_append_right _ _ _ _ (by omega), hlA]
        have h0 : L.length - 1 - (L.length - 1) = 0 := by omega
        rw [h0, getD_dropLast _ _ (by omega)]
      have hc1 : cyc (L.dropLast ++ U.dropLast) (L.length - 1 + 1) =
          U.getD 1 pd := by
        unfold cyc
        rw [Nat.mod_eq_of_lt (by omega),
          List.getD_append_right _ _ _ _ (by omega), hlA]
        have h0 : L.length - 1 + 1 - (L.length - 1) = 1 := by omega
        rw [h0, getD_dropLast _ _ (by omega)]
      have hc2 : cyc (L.dropLast ++ U.dropLast) (L.length - 1 + 2) =
          U.getD 2 pd := by
        unfold cyc
        rcases Nat.lt_or_ge (L.length - 1 + 2)
            (L.dropLast ++ U.dropLast).length with h | h
        · rw [Nat.mod_eq_of_lt h,
            List.getD_append_right _ _ _ _ (by omega), hlA]
          have h0 : L.length - 1 + 2 - (L.length - 1) = 2 := by omega
          rw [h0, getD_dropLast _ _ (by omega)]
        · have hUlen : U.length = 3 := by omega
          have hmod : (L.length - 1 + 2) % (L.dropLast ++ U.dropLast).length
              = 0 := by
            have he : L.length - 1 + 2 = (L.dropLast ++ U.dropLast).length := by
              omega
            rw [he, Nat.mod_self]
          rw [hmod, List.getD_append _ _ _ _ (by omega),
            getD_dropLast _ _ (by omega), hLh, ← hUl]
          congr 1
          omega
      rw [hc0, hc1, hc2]
      exact hUf.turns 0 (by omega)
  exact ⟨hsub, hm3, htriples, hstrict, hpairs⟩

/-- C5 (amended): for an input of at least three pairwise-distinct
points that are not all collinear, `convexHull` returns vertices drawn
from the input, at least three of them, in counterclockwise order with
only non-negative cyclic turns and at least one strict turn (a
non-degenerate convex polygon), and every input point lies on or to the
left of every directed hull edge, i.e. on or inside the polygon.  For
collinear inputs the code instead returns a degenerate 2-vertex chain
(see the counterexample). -/
theorem convexHull_correct (pts : List Pt) (h3 : 3 ≤ pts.length)
    (hnd : pts.Nodup)
    (hnc : ∃ a ∈ pts, ∃ b ∈ pts, ∃ c ∈ pts, cross a b c ≠ 0) :
    (∀ v ∈ convexHull pts, v ∈ pts) ∧
    3 ≤ (convexHull pts).length ∧
    (∀ i : Nat, 0 ≤ cross (cyc (convexHull pts) i)
      (cyc (convexHull pts) (i + 1)) (cyc (convexHull pts) (i + 2))) ∧
    (∃ i : Nat, 0 < cross (cyc (convexHull pts) i)
      (cyc (convexHull pts) (i + 1)) (cyc (convexHull pts) (i + 2))) ∧
    (∀ q ∈ pts, ∀ i : Nat, 0 ≤ cross (cyc (convexHull pts) i)
      (cyc (convexHull pts) (i + 1)) q) := by
  have hlt3 : ¬pts.length < 3 := by omega
  have hperm : (sortLex pts).Perm pts := List.perm_insertionSort lexLe pts
  have hslen : 3 ≤ (sortLex pts).length := by rw [hperm.length_eq]; exact h3
  have hsorted : (sortLex pts).Sorted lexLe := List.sorted_insertionSort lexLe pts
  have hnds : (sortLex pts).Nodup := hperm.nodup_iff.mpr hnd
  have hpw : (sortLex pts).Pairwise lexLt :=
    (List.Pairwise.and hsorted hnds).imp
      (fun h => lexLt_of_le_ne _ _ h.1 h.2)
  have hsne : sortLex pts ≠ [] := by
    intro h
    rw [h] at hslen
    simp at hslen
  have hLf := buildChain_facts (sortLex pts) hpw hsne
  have hUf := buildChain_reverse_facts (sortLex pts) hpw hsne
  have hnc2 : ∃ a ∈ sortLex pts, ∃ b ∈ sortLex pts, ∃ c ∈ sortLex pts,
      cross a b c ≠ 0 := by
    obtain ⟨a, ha, b, hb, c, hc, h⟩ := hnc
    exact ⟨a, hperm.mem_iff.mpr ha, b, hperm.mem_iff.mpr hb, c,
      hperm.mem_iff.mpr hc, h⟩
  have hasm := hull_assembly (sortLex pts) _ _ hslen hpw hLf hUf hnc2
  have hH : convexHull pts = (buildChain (sortLex pts)).dropLast ++
      (buildChain (sortLex pts).reverse).dropLast := by
    unfold convexHull
    rw [if_neg hlt3]
  rw [hH]
  refine ⟨fun v hv => hperm.mem_iff.mp (hasm.1 v hv), hasm.2.1, hasm.2.2.1,
    hasm.2.2.2.1, ?_⟩
  intro q hq i
  exact hasm.2.2.2.2 q (hperm.mem_iff.mpr hq) i

/-- Witness for C5: the triangle `(0,0), (2,0), (0,2)` — all hypotheses
hold and the hull has at least three vertices. -/
theorem convexHull_correct_check :
    3 ≤ (convexHull [((0 : ℚ), (0 : ℚ)), (2, 0), (0, 2)]).length := by
  have h := convexHull_correct [((0 : ℚ), (0 : ℚ)), (2, 0), (0, 2)]
    (by decide) (by decide)
    ⟨(0, 0), by decide, (2, 0), by decide, (0, 2), by decide,
      by norm_num [cross]⟩
  exact h.2.1

/-- C5 (counterexample): three distinct collinear points are a point set
of size 3, yet the code returns only 2 hull vertices — not a polygon. -/
theorem convexHull_collinear_degenerate :
    (convexHull [((0 : ℚ), (0 : ℚ)), (1, 0), (2, 0)]).length = 2 := by
  have hs : sortLex [((0 : ℚ), (0 : ℚ)), (1, 0), (2, 0)] =
      [((0 : ℚ), (0 : ℚ)), (1, 0), (2, 0)] := by decide
  unfold convexHull
  rw [if_neg (by norm_num), hs]
  norm_num [buildChain, chainRev, popWhile, cross]

end RelGraph
